import Mathlib

/-!
# big_integer: a shallow embedding of `src/big_integer.cpp`

A `big_integer` is a sign flag together with a little-endian list of 32-bit
limbs.  Limbs are natural numbers below `2 ^ 32`; every cast to a 32-bit word
is an explicit `% 2 ^ 32`, and a 64-bit temporary is reduced `% 2 ^ 64` where
it holds a product or a shifted word (a sum of three words cannot reach `2 ^ 64`).
Operations that can throw or whose behaviour is undefined in C++ return
`Except Error _`.
-/

namespace BigInteger

/-! ## Constants and the data model -/

/-- Number of bits in a limb (`BASE_POW`). -/
def BASE_POW : Nat := 32

/-- The limb base `1ull << BASE_POW`. -/
def BASE : Nat := 2 ^ 32

/-- Largest 32-bit word. -/
def UINT32_MAX : Nat := 4294967295

/-- Modulus of the 64-bit temporaries (`uint64_t`). -/
def U64 : Nat := 2 ^ 64

/-- Table `TEN` of the powers of ten that fit a limb. -/
def TEN : List Nat :=
  [1, 10, 100, 1000, 10000, 100000, 1000000, 10000000, 100000000, 1000000000]

/-- Ways an operation of the source can fail. -/
inductive Error where
  /-- The exception `std::invalid_argument` with its message. -/
  | invalid_argument (what : String)
  /-- The exception `std::length_error` of a vector constructor. -/
  | length_error
  /-- Undefined behaviour: out-of-range access or erase, hardware division by zero. -/
  | undefined_behavior
  /-- The iteration bound of a loop of this model was used up (never a behaviour of the source). -/
  | out_of_fuel
  deriving DecidableEq, Repr

/-- The struct `big_integer`: fields `negative_` and `digits_` (least significant limb first). -/
structure big_integer where
  negative_ : Bool
  digits_ : List Nat
  deriving DecidableEq, Repr

/-- Conversion of a `bool` to an integer, as in `neg * UINT32_MAX`. -/
def b2n (b : Bool) : Nat := if b then 1 else 0

/-- The constant `ZERO` (default constructor: one zero limb, not negative). -/
def ZERO : big_integer := ⟨false, [0]⟩

/-! ## Representation primitives -/

/-- Loop of `shrink` on the limbs listed most significant first: pops the
front (the vector's back) while more than one limb is left and it equals `w`. -/
def shrink_rev : List Nat → Nat → List Nat
  | d :: e :: rest, w => if d = w then shrink_rev (e :: rest) w else d :: e :: rest
  | l, _ => l

/-- The function `shrink(v, neg)`: drop top limbs equal to `neg * UINT32_MAX` while `v.size() > 1`. -/
def shrink (v : List Nat) (neg : Bool) : List Nat :=
  (shrink_rev v.reverse (b2n neg * UINT32_MAX)).reverse

/-- The method `get_digit(idx)`: stored limb, or the sign-extension word past the end. -/
def get_digit (a : big_integer) (idx : Nat) : Nat :=
  if idx < a.digits_.length then a.digits_.getD idx 0 else b2n a.negative_ * UINT32_MAX

/-- The method `get_inv_digit(idx)`: complement of the stored limb, or of the sign-extension word. -/
def get_inv_digit (a : big_integer) (idx : Nat) : Nat :=
  if idx < a.digits_.length then UINT32_MAX - a.digits_.getD idx 0
  else b2n (!a.negative_) * UINT32_MAX

/-- Loop of `less`: both sequences are walked from the most significant limb
until one of them ends; the first difference decides. -/
def less_loop : List Nat → List Nat → Bool
  | x :: xs, y :: ys => if x ≠ y then decide (x < y) else less_loop xs ys
  | _, _ => false

/-- The function `less(v1, v2, offset)`: `v1` without its `offset` lowest limbs against `v2`. -/
def less (v1 v2 : List Nat) (offset : Nat) : Bool :=
  if v1.length > v2.length + offset then false
  else less_loop (v1.drop offset).reverse v2.reverse

/-- The call `v.resize(n, fill)`. -/
def resize (v : List Nat) (n : Nat) (fill : Nat) : List Nat :=
  v.take n ++ List.replicate (n - v.length) fill

/-- Ripple loop shared by `operator+=`, `operator-=`, `offset_sub` and `negate`:
limb `i` of the buffer becomes the low word of `digits_[i] + f i + carry`,
where `f` reads the other operand. -/
def ripple (f : Nat → Nat) : List Nat → Nat → Nat → List Nat
  | [], _, _ => []
  | d :: ds, i, carry =>
    let s := d + f i + carry
    (s % BASE) :: ripple f ds (i + 1) (s / BASE)

/-- The method `offset_sub(b, offset)`: subtract `b` placed at limb `offset`, by complement plus one. -/
def offset_sub (a b : big_integer) (offset : Nat) : big_integer :=
  let low := a.digits_.take offset
  let high := ripple (fun i => get_inv_digit b (i - offset)) (a.digits_.drop offset) offset 1
  ⟨a.negative_, shrink (low ++ high) false⟩

/-- The sign read off the top limb, `digits_.back() >> (BASE_POW - 1)`. -/
def top_bit (v : List Nat) : Bool :=
  decide (v.getLastD 0 / 2 ^ 31 ≠ 0)

/-- The operator `+=`. -/
def operator_plus_eq (a rhs : big_integer) : big_integer :=
  let d := resize a.digits_ (max a.digits_.length rhs.digits_.length + 2) (get_digit a a.digits_.length)
  let d := ripple (get_digit rhs) d 0 0
  let neg := top_bit d
  ⟨neg, shrink d neg⟩

/-- The operator `-=`. -/
def operator_minus_eq (a rhs : big_integer) : big_integer :=
  let d := resize a.digits_ (max a.digits_.length rhs.digits_.length + 2) (get_digit a a.digits_.length)
  let d := ripple (get_inv_digit rhs) d 0 1
  let neg := top_bit d
  ⟨neg, shrink d neg⟩

/-- The method `negate()`. -/
def negate (a : big_integer) : big_integer :=
  if a = ZERO then a
  else
    let d := resize a.digits_ (a.digits_.length + 2) (get_digit a a.digits_.length)
    let d := ripple (fun _ => 0) (d.map (fun x => UINT32_MAX - x)) 0 1
    ⟨!a.negative_, shrink d (!a.negative_)⟩

/-- The method `abs()`. -/
def abs (a : big_integer) : big_integer :=
  if a.negative_ then negate a else a

/-! ## Constructors -/

/-- The constructor `big_integer(long long a)`; `a` ranges over the 64-bit signed integers. -/
def of_long_long (a : Int) : big_integer :=
  let neg := decide (a < 0)
  ⟨neg, shrink [(a % 4294967296).toNat, ((a / 4294967296) % 4294967296).toNat] neg⟩

/-- The constructor `big_integer(unsigned long long a)`; `a` ranges over the 64-bit unsigned integers. -/
def of_unsigned_long_long (a : Nat) : big_integer :=
  ⟨false, shrink [a % BASE, (a / BASE) % BASE] false⟩

/-- The constant `ONE`. -/
def ONE : big_integer := of_long_long 1

/-! ## Multiplication -/

/-- Loop of `mul_short`: `cur = carry + digits_[i] * b`, low word stored, high word carried. -/
def mul_short_loop (b : Nat) : List Nat → Nat → List Nat
  | [], _ => []
  | d :: ds, carry =>
    let cur := (carry + d * b) % U64
    (cur % BASE) :: mul_short_loop b ds (cur / BASE)

/-- The method `mul_short(b)` (precondition of the source: the value is not negative). -/
def mul_short (a : big_integer) (b : Nat) : big_integer :=
  let d := resize a.digits_ (a.digits_.length + 1) 0
  ⟨a.negative_, shrink (mul_short_loop b d 0) a.negative_⟩

/-- Inner loop of `operator*=` for one limb `x = get_digit(i)`; the list is
`new_digits` from index `i + j` on.  The loop runs while `j < rhs.size()` or
`carry` is nonzero; running past the end of `new_digits` is an out-of-range access. -/
def mul_inner (x : Nat) (rhs : big_integer) : List Nat → Nat → Nat → Except Error (List Nat)
  | [], j, carry =>
    if j < rhs.digits_.length ∨ carry ≠ 0 then .error .undefined_behavior else .ok []
  | d :: ds, j, carry =>
    if j < rhs.digits_.length ∨ carry ≠ 0 then
      let cur := (d + x * get_digit rhs j + carry) % U64
      match mul_inner x rhs ds (j + 1) (cur / BASE) with
      | .ok r => .ok ((cur % BASE) :: r)
      | .error e => .error e
    else .ok (d :: ds)

/-- Outer loop of `operator*=`: the first list holds the limbs `digits_[i..]`
still to be used, the second is `new_digits` from index `i` on. -/
def mul_outer (rhs : big_integer) : List Nat → List Nat → Except Error (List Nat)
  | [], nd => .ok nd
  | x :: xs, nd =>
    match mul_inner x rhs nd 0 0 with
    | .error e => .error e
    | .ok [] => mul_outer rhs xs []
    | .ok (d :: rest) =>
      match mul_outer rhs xs rest with
      | .ok r => .ok (d :: r)
      | .error e => .error e

/-- The operator `*=`. -/
def operator_mul_eq (a rhs : big_integer) : Except Error big_integer :=
  let sign := xor a.negative_ rhs.negative_
  let a := abs a
  let rhs := abs rhs
  match mul_outer rhs a.digits_ (List.replicate (a.digits_.length + rhs.digits_.length) 0) with
  | .error e => .error e
  | .ok nd =>
    let r : big_integer := ⟨a.negative_, shrink nd false⟩
    .ok (if sign then negate r else r)

/-! ## Division -/

/-- The function `div21(x1, x2, y1)`; `y1` is not zero. -/
def div21 (x1 x2 y1 : Nat) : Nat :=
  (((x1 * BASE) % U64) ||| x2) / y1

/-- Loop of `div_short` over the limbs listed most significant first;
returns the quotient limbs (same order) and the final carry. -/
def div_short_loop (b : Nat) : List Nat → Nat → List Nat × Nat
  | [], carry => ([], carry)
  | d :: ds, carry =>
    let cur := (d + carry * BASE) % U64
    let r := div_short_loop b ds (cur % b)
    ((cur / b) % BASE :: r.1, r.2)

/-- The method `div_short(b)`: the value divided in place and the returned remainder.
Division by `b = 0` is undefined. -/
def div_short (a : big_integer) (b : Nat) : Except Error (big_integer × Nat) :=
  if b = 0 then .error .undefined_behavior
  else
    let r := div_short_loop b a.digits_.reverse 0
    .ok (⟨a.negative_, shrink r.1.reverse a.negative_⟩, r.2 % BASE)

/-- Body of the loop of `div_long` for one `k`: the new dividend and the quotient limb `q[k]`.
Here `n = y.digits_.size()` is at least one, so `n + k - 1` and `n - 1` are indices. -/
def div_step (t y : big_integer) (n k : Nat) : Except Error (big_integer × Nat) :=
  if get_digit y (n - 1) = 0 then .error .undefined_behavior
  else
    let qk := min (BASE - 1) (div21 (get_digit t (n + k)) (get_digit t (n + k - 1)) (get_digit y (n - 1)))
    let qy := mul_short y qk
    if less t.digits_ qy.digits_ k then
      .ok (offset_sub t (operator_minus_eq qy y) k, (qk + UINT32_MAX) % BASE)
    else
      .ok (offset_sub t qy k, qk)

/-- Loop of `div_long`; the first argument is `k + 1`, so `0` stands for `k = -1`. -/
def div_long_loop (y : big_integer) (n : Nat) : Nat → big_integer → List Nat →
    Except Error (big_integer × List Nat)
  | 0, t, q => .ok (t, q)
  | k + 1, t, q =>
    if t.digits_.length ≥ n + k then
      match div_step t y n k with
      | .error e => .error e
      | .ok (t1, qk) => div_long_loop y n k t1 (q.set k qk)
    else .ok (t, q)

/-- The normalisation factor `BASE / (y.digits_.back() + 1)` as a 32-bit word. -/
def norm_factor (y : big_integer) : Nat :=
  (BASE / (y.digits_.getLastD 0 + 1)) % BASE

/-- The method `div_long(y)`. -/
def div_long (a y : big_integer) : Except Error big_integer :=
  let sign := xor a.negative_ y.negative_
  let a := abs a
  let y := abs y
  let f := norm_factor y
  let a := mul_short a f
  let y := mul_short y f
  let n := y.digits_.length
  let m := a.digits_.length
  let k : Int := (m : Int) - (n : Int)
  if k + 1 < 0 then .error .length_error
  else
    match div_long_loop y n (k + 1).toNat a (List.replicate (k + 1).toNat 0) with
    | .error e => .error e
    | .ok (_, q) =>
      let r : big_integer := ⟨a.negative_, shrink q false⟩
      .ok (if sign then negate r else r)

/-- Loop of `mod_long`: as in `div_long`, without the quotient. -/
def mod_long_loop (y : big_integer) (n : Nat) : Nat → big_integer → Except Error big_integer
  | 0, t => .ok t
  | k + 1, t =>
    if t.digits_.length ≥ n + k then
      match div_step t y n k with
      | .error e => .error e
      | .ok (t1, _) => mod_long_loop y n k t1
    else .ok t

/-- The method `mod_long(y)`. -/
def mod_long (a y : big_integer) : Except Error big_integer :=
  let a := abs a
  let y := abs y
  let f := norm_factor y
  let a := mul_short a f
  let y := mul_short y f
  let n := y.digits_.length
  let m := a.digits_.length
  let k : Int := (m : Int) - (n : Int)
  match mod_long_loop y n (k + 1).toNat a with
  | .error e => .error e
  | .ok t =>
    match div_short t f with
    | .error e => .error e
    | .ok (t1, _) => .ok t1

/-- The divisor handed to `div_short` on the single-limb path:
`rhs.negative_ ? ~rhs.digits_[0] + 1 : rhs.digits_[0]` in 32-bit arithmetic. -/
def short_divisor (rhs : big_integer) : Nat :=
  if rhs.negative_ then (UINT32_MAX - rhs.digits_.getD 0 0 + 1) % BASE else rhs.digits_.getD 0 0

/-- The operator `/=`. -/
def operator_div_eq (a rhs : big_integer) : Except Error big_integer :=
  if rhs.digits_.length = 1 then
    if rhs ≠ ZERO then
      let sign := xor a.negative_ rhs.negative_
      match div_short (abs a) (short_divisor rhs) with
      | .error e => .error e
      | .ok (q, _) => .ok (if sign then negate q else q)
    else .error (.invalid_argument "Division by zero")
  else if rhs.digits_.length > a.digits_.length then .ok ZERO
  else div_long a rhs

/-- The operator `%=`. -/
def operator_mod_eq (a rhs : big_integer) : Except Error big_integer :=
  let sign := a.negative_
  if rhs.digits_.length = 1 then
    if rhs ≠ ZERO then
      match div_short (abs a) (short_divisor rhs) with
      | .error e => .error e
      | .ok (_, r) =>
        let t := of_unsigned_long_long r
        .ok (if sign then negate t else t)
    else .error (.invalid_argument "Division by zero")
  else if rhs.digits_.length > a.digits_.length then .ok a
  else
    match mod_long a rhs with
    | .error e => .error e
    | .ok t => .ok (if sign then negate t else t)

/-! ## Bitwise operators and shifts -/

/-- Loop of `bitwise`: `digits_[i] = op(get_digit(i), rhs.get_digit(i))`. -/
def bitwise_loop (op : Nat → Nat → Nat) (rhs : big_integer) : List Nat → Nat → List Nat
  | [], _ => []
  | d :: ds, i => op d (get_digit rhs i) :: bitwise_loop op rhs ds (i + 1)

/-- The method `bitwise(rhs, op)`; `op` works on 32-bit words. -/
def bitwise (a rhs : big_integer) (op : Nat → Nat → Nat) : big_integer :=
  let d := resize a.digits_ (max a.digits_.length rhs.digits_.length) (get_digit a a.digits_.length)
  let d := bitwise_loop op rhs d 0
  let neg := decide (op (b2n a.negative_) (b2n rhs.negative_) ≠ 0)
  ⟨neg, shrink d neg⟩

/-- The operator `&=`. -/
def operator_and_eq (a rhs : big_integer) : big_integer := bitwise a rhs (fun x y => x &&& y)

/-- The operator `|=`. -/
def operator_or_eq (a rhs : big_integer) : big_integer := bitwise a rhs (fun x y => x ||| y)

/-- The operator `^=`. -/
def operator_xor_eq (a rhs : big_integer) : big_integer := bitwise a rhs (fun x y => x ^^^ y)

/-- The operator `~`. -/
def operator_not (a : big_integer) : big_integer :=
  ⟨!a.negative_, a.digits_.map (fun x => UINT32_MAX - x)⟩

/-- The unary operator `-`. -/
def operator_neg (a : big_integer) : big_integer := negate a

/-- The prefix operator `++`: `*this += ONE`. -/
def operator_inc (a : big_integer) : big_integer := operator_plus_eq a ONE

/-- The prefix operator `--`: `*this -= ONE`. -/
def operator_dec (a : big_integer) : big_integer := operator_minus_eq a ONE

/-- Sub-limb loop of `operator<<=` (least significant limb first), `0 < r < 32`;
returns the shifted limbs and the last carry. -/
def shl_loop (r : Nat) : List Nat → Nat → List Nat × Nat
  | [], carry => ([], carry)
  | d :: ds, carry =>
    let sec_half := d / 2 ^ (BASE_POW - r)
    let res := shl_loop r ds sec_half
    (((d * 2 ^ r) % BASE + carry) % BASE :: res.1, res.2)

/-- The operator `<<=` for a shift amount `rhs >= 0`. -/
def shl_nonneg (a : big_integer) (rhs : Nat) : big_integer :=
  let z_cnt := rhs / BASE_POW
  let r := rhs % BASE_POW
  if r ≠ 0 then
    let res := shl_loop r a.digits_ 0
    let top := (b2n a.negative_ * ((UINT32_MAX * 2 ^ r) % BASE) + res.2) % BASE
    ⟨a.negative_, shrink (List.replicate z_cnt 0 ++ res.1 ++ [top]) a.negative_⟩
  else
    ⟨a.negative_, shrink (List.replicate z_cnt 0 ++ a.digits_) a.negative_⟩

/-- Sub-limb loop of `operator>>=` over the limbs listed most significant first, `0 < r < 32`. -/
def shr_loop (r : Nat) : List Nat → Nat → List Nat
  | [], _ => []
  | d :: ds, carry =>
    let sec_half := (d * 2 ^ (BASE_POW - r)) % BASE
    (d / 2 ^ r + carry) % BASE :: shr_loop r ds sec_half

/-- The operator `>>=` for a shift amount `rhs >= 0`.  Erasing more limbs than
the vector holds is undefined. -/
def shr_nonneg (a : big_integer) (rhs : Nat) : Except Error big_integer :=
  if rhs / BASE_POW > a.digits_.length then .error .undefined_behavior
  else
    let d := a.digits_.drop (rhs / BASE_POW)
    let r := rhs % BASE_POW
    let carry := ((b2n a.negative_ * ((UINT32_MAX * 2 ^ (BASE_POW - r)) % U64)) % U64) % BASE
    let d := if r ≠ 0 then (shr_loop r d.reverse carry).reverse else d
    let d := if d.isEmpty then [b2n a.negative_ * UINT32_MAX] else d
    .ok ⟨a.negative_, shrink d a.negative_⟩

/-- The operator `<<=`; `rhs` ranges over the 32-bit signed integers, and
negating the least of them is undefined. -/
def operator_shl_eq (a : big_integer) (rhs : Int) : Except Error big_integer :=
  if rhs < 0 then
    if rhs = -2147483648 then .error .undefined_behavior else shr_nonneg a (-rhs).toNat
  else .ok (shl_nonneg a rhs.toNat)

/-- The operator `>>=`; `rhs` ranges over the 32-bit signed integers. -/
def operator_shr_eq (a : big_integer) (rhs : Int) : Except Error big_integer :=
  if rhs < 0 then
    if rhs = -2147483648 then .error .undefined_behavior else .ok (shl_nonneg a (-rhs).toNat)
  else shr_nonneg a rhs.toNat

/-! ## Comparisons -/

/-- The operator `==`. -/
def operator_eq (a b : big_integer) : Bool :=
  a.negative_ == b.negative_ && a.digits_ == b.digits_

/-- The operator `!=`. -/
def operator_ne (a b : big_integer) : Bool := !operator_eq a b

/-- The operator `<`. -/
def operator_lt (a b : big_integer) : Bool :=
  if a.negative_ ≠ b.negative_ then decide (b2n a.negative_ > b2n b.negative_)
  else
    decide (a.digits_.length < b.digits_.length) ||
      (decide (a.digits_.length = b.digits_.length) && less a.digits_ b.digits_ 0)

/-! ## Decimal strings (a `std::string` is a list of characters) -/

/-- The helper `strtoull(s, len)` on the `len` characters handed to it; the
caller has checked that they are digits. -/
def strtoull (s : List Char) : Nat :=
  s.foldl (fun res c => (res * 10 + (c.toNat - 48)) % U64) 0

/-- Loop of the string constructor over the text that starts at index `i`:
chunks of at most nine characters are checked, then folded into the value.
The first argument bounds the number of chunks. -/
def parse_loop : Nat → List Char → big_integer → Except Error big_integer
  | 0, s, acc => if s.isEmpty then .ok acc else .error .out_of_fuel
  | fuel + 1, s, acc =>
    if s.isEmpty then .ok acc
    else
      let len := if 9 < s.length then 9 else s.length
      let chunk := s.take len
      if chunk.all (fun c => decide ('0' ≤ c ∧ c ≤ '9')) then
        let acc := operator_plus_eq (mul_short acc (TEN.getD len 0)) (of_unsigned_long_long (strtoull chunk))
        parse_loop fuel (s.drop 9) acc
      else .error (.invalid_argument "NaN string")

/-- The constructor `big_integer(std::string const& str)`. -/
def of_string (str : List Char) : Except Error big_integer :=
  if str.length = 0 then .error (.invalid_argument "NaN string")
  else
    let start_i := if str.head? = some '-' ∨ str.head? = some '+' then 1 else 0
    if str.length - start_i = 0 then .error (.invalid_argument "NaN string")
    else
      match parse_loop str.length (str.drop start_i) ZERO with
      | .error e => .error e
      | .ok t =>
        let t : big_integer := ⟨t.negative_, shrink t.digits_ false⟩
        .ok (if t ≠ ZERO ∧ str.head? = some '-' then negate t else t)

/-- First loop of `append_as_fixed_len_str`: the decimal digits of `x`, least
significant first.  The first argument bounds the number of digits (ten for a 32-bit word). -/
def append_digits : Nat → Nat → List Char → List Char
  | 0, _, str => str
  | fuel + 1, x, str =>
    if x ≠ 0 then append_digits fuel (x / 10) (str ++ [Char.ofNat (48 + x % 10)]) else str

/-- The helper `append_as_fixed_len_str(x, str, len)` for `x` of at most `len` digits:
digits of `x` pushed least significant first, then zeros up to `len` characters. -/
def append_as_fixed_len_str (x : Nat) (str : List Char) (len : Nat) : List Char :=
  let s := append_digits 10 x str
  s ++ List.replicate (len - (s.length - str.length)) '0'

/-- Loop `while (tmp != ZERO)` of `to_string`, with a bound on its iterations. -/
def to_string_loop : Nat → big_integer → List Char → Except Error (List Char)
  | 0, tmp, str => if tmp ≠ ZERO then .error .out_of_fuel else .ok str
  | fuel + 1, tmp, str =>
    if tmp ≠ ZERO then
      match div_short tmp (TEN.getD 9 0) with
      | .error e => .error e
      | .ok (tmp1, rem) => to_string_loop fuel tmp1 (append_as_fixed_len_str rem str 9)
    else .ok str

/-- Loop of `to_string` that pops the characters `'0'` off the back while more than one is left;
the text is listed back first. -/
def strip_zeros : List Char → List Char
  | c :: d :: rest => if c = '0' then strip_zeros (d :: rest) else c :: d :: rest
  | l => l

/-- The function `to_string(a)`, with a bound on the iterations of its division loop. -/
def to_string (fuel : Nat) (a : big_integer) : Except Error (List Char) :=
  if a = ZERO then .ok ['0']
  else
    let tmp := if a.negative_ then operator_neg a else a
    match to_string_loop fuel tmp [] with
    | .error e => .error e
    | .ok str =>
      let str := (strip_zeros str.reverse).reverse
      let str := if a.negative_ then str ++ ['-'] else str
      .ok str.reverse

/-! ## Meaning of a value -/

/-- The natural number written by a little-endian list of limbs. -/
def limbs_val : List Nat → Nat
  | [] => 0
  | d :: ds => d + BASE * limbs_val ds

/-- The integer a value denotes: `sum d_i * 2^(32 i)`, minus `2^(32 n)` when the sign flag is set. -/
def denote (a : big_integer) : Int :=
  (limbs_val a.digits_ : Int) - (if a.negative_ then ((BASE ^ a.digits_.length : Nat) : Int) else 0)

/-- Every limb is a 32-bit word. -/
def limbs_ok (v : List Nat) : Prop := ∀ d ∈ v, d < BASE

instance (v : List Nat) : Decidable (limbs_ok v) := by
  unfold limbs_ok; infer_instance

/-- Canonical form: 32-bit limbs, at least one of them, and the top limb is not
the sign-extension word unless it is the only limb. -/
def canonical (a : big_integer) : Prop :=
  limbs_ok a.digits_ ∧ a.digits_ ≠ [] ∧
    (1 < a.digits_.length → a.digits_.getLast? ≠ some (b2n a.negative_ * UINT32_MAX))

instance (a : big_integer) : Decidable (canonical a) := by
  unfold canonical; infer_instance

/-- Value of the `n` words `f i, f (i + 1), ...` read as little-endian limbs. -/
def ext_val (f : Nat → Nat) : Nat → Nat → Nat
  | _, 0 => 0
  | i, n + 1 => f i + BASE * ext_val f (i + 1) n

/-- Carry that leaves the loop `ripple`. -/
def ripple_carry (f : Nat → Nat) : List Nat → Nat → Nat → Nat
  | [], _, carry => carry
  | d :: ds, i, carry => ripple_carry f ds (i + 1) ((d + f i + carry) / BASE)

/-! ## Decimal numerals -/

/-- An ASCII digit `'0'..'9'`. -/
def is_digit_char (c : Char) : Prop := '0' ≤ c ∧ c ≤ '9'

instance (c : Char) : Decidable (is_digit_char c) := by
  unfold is_digit_char; infer_instance

/-- The natural number a run of decimal digits denotes, most significant digit first. -/
def digits_value (ds : List Char) : Nat :=
  ds.foldl (fun acc c => acc * 10 + (c.toNat - 48)) 0

/-- The character of a decimal digit. -/
def digit_char (d : Nat) : Char := Char.ofNat (48 + d)

/-- The canonical decimal numeral of an integer: `"0"` for zero, otherwise the
base-10 digits of the magnitude without leading zero, after `'-'` when negative. -/
def decimal_numeral (z : Int) : List Char :=
  if z = 0 then ['0']
  else (if z < 0 then ['-'] else []) ++ (Nat.digits 10 z.natAbs).reverse.map digit_char

/-- The characters of a string after its optional single leading sign. -/
def after_sign (s : List Char) : List Char :=
  if s.head? = some '-' ∨ s.head? = some '+' then s.drop 1 else s

/-! ## Compound assignment seen from the caller -/

/-- The statement `a /= rhs` as a change of the object `a`: the outcome and the
object left behind.  `Division by zero` is thrown in the branch
`rhs.digits_.size() == 1`, `rhs == ZERO`, before any member is written, so the
object is the one the call found.  After any other failure the object is in
a state this model does not describe (`none`). -/
def operator_div_eq_state (a rhs : big_integer) : Except Error Unit × Option big_integer :=
  if rhs.digits_.length = 1 ∧ rhs = ZERO then
    (.error (.invalid_argument "Division by zero"), some a)
  else
    match operator_div_eq a rhs with
    | .ok r => (.ok (), some r)
    | .error e => (.error e, none)

/-- The statement `a %= rhs` as a change of the object `a`; before the throw
only the local `sign` has been written. -/
def operator_mod_eq_state (a rhs : big_integer) : Except Error Unit × Option big_integer :=
  if rhs.digits_.length = 1 ∧ rhs = ZERO then
    (.error (.invalid_argument "Division by zero"), some a)
  else
    match operator_mod_eq a rhs with
    | .ok r => (.ok (), some r)
    | .error e => (.error e, none)

theorem BASE_pos : 0 < BASE := by decide

theorem BASE_eq : BASE = 4294967296 := by decide

theorem limbs_ok_nil : limbs_ok [] := by
  intro d hd; cases hd

theorem limbs_ok_cons {d : Nat} {ds : List Nat} :
    limbs_ok (d :: ds) ↔ d < BASE ∧ limbs_ok ds := by
  simp [limbs_ok]

theorem limbs_ok_append {xs ys : List Nat} :
    limbs_ok (xs ++ ys) ↔ limbs_ok xs ∧ limbs_ok ys := by
  simp only [limbs_ok, List.mem_append]
  constructor
  · intro h; exact ⟨fun d hd => h d (Or.inl hd), fun d hd => h d (Or.inr hd)⟩
  · rintro ⟨h1, h2⟩ d (hd | hd)
    · exact h1 d hd
    · exact h2 d hd

theorem limbs_ok_replicate {n w : Nat} (hw : w < BASE) : limbs_ok (List.replicate n w) := by
  intro d hd
  rw [List.mem_replicate] at hd
  omega

theorem limbs_ok_reverse {v : List Nat} : limbs_ok v.reverse ↔ limbs_ok v := by
  simp [limbs_ok]

theorem limbs_val_append (xs ys : List Nat) :
    limbs_val (xs ++ ys) = limbs_val xs + BASE ^ xs.length * limbs_val ys := by
  induction xs with
  | nil => simp [limbs_val]
  | cons x xs ih =>
    show x + BASE * limbs_val (xs ++ ys) = (x + BASE * limbs_val xs) + BASE ^ (xs.length + 1) * limbs_val ys
    rw [ih, pow_succ]
    ring

theorem limbs_val_lt {v : List Nat} (h : limbs_ok v) : limbs_val v < BASE ^ v.length := by
  induction v with
  | nil => simp [limbs_val]
  | cons d ds ih =>
    rw [limbs_ok_cons] at h
    have h2 := ih h.2
    simp only [limbs_val, List.length_cons, pow_succ]
    have h1 := h.1
    nlinarith

theorem limbs_val_replicate_zero (n : Nat) : limbs_val (List.replicate n 0) = 0 := by
  induction n with
  | zero => rfl
  | succ n ih => simp [List.replicate_succ, limbs_val, ih]

theorem limbs_val_replicate_max (n : Nat) :
    limbs_val (List.replicate n UINT32_MAX) + 1 = BASE ^ n := by
  induction n with
  | zero => rfl
  | succ n ih =>
    simp only [List.replicate_succ, limbs_val, pow_succ]
    have : UINT32_MAX + 1 = BASE := by decide
    nlinarith

theorem limbs_val_inj {xs ys : List Nat} (hx : limbs_ok xs) (hy : limbs_ok ys)
    (hl : xs.length = ys.length) (hv : limbs_val xs = limbs_val ys) : xs = ys := by
  induction xs generalizing ys with
  | nil =>
    cases ys with
    | nil => rfl
    | cons y ys => simp at hl
  | cons x xs ih =>
    cases ys with
    | nil => simp at hl
    | cons y ys =>
      rw [limbs_ok_cons] at hx hy
      simp only [limbs_val] at hv
      simp only [List.length_cons, Nat.add_right_cancel_iff] at hl
      have hB := BASE_pos
      have h1 : x = y := by
        have := congrArg (· % BASE) hv
        simp only [Nat.add_mul_mod_self_left] at this
        rwa [Nat.mod_eq_of_lt hx.1, Nat.mod_eq_of_lt hy.1] at this
      subst h1
      have h2 : limbs_val xs = limbs_val ys := by
        have : BASE * limbs_val xs = BASE * limbs_val ys := by omega
        exact Nat.eq_of_mul_eq_mul_left hB this
      rw [ih hx.2 hy.2 hl h2]

/-- The sign-extension word `neg * UINT32_MAX`. -/
theorem sign_word_lt (neg : Bool) : b2n neg * UINT32_MAX < BASE := by
  cases neg <;> decide

theorem shrink_nil (neg : Bool) : shrink [] neg = [] := rfl

theorem shrink_singleton (x : Nat) (neg : Bool) : shrink [x] neg = [x] := rfl

theorem shrink_concat_eq {v : List Nat} (neg : Bool) (hv : v ≠ []) :
    shrink (v ++ [b2n neg * UINT32_MAX]) neg = shrink v neg := by
  obtain ⟨e, rest, hr⟩ : ∃ e rest, v.reverse = e :: rest := by
    cases h : v.reverse with
    | nil => simp at h; exact absurd h hv
    | cons e rest => exact ⟨e, rest, rfl⟩
  simp [shrink, hr, shrink_rev]

theorem shrink_concat_ne {v : List Nat} {x : Nat} (neg : Bool)
    (hx : x ≠ b2n neg * UINT32_MAX) : shrink (v ++ [x]) neg = v ++ [x] := by
  cases h : v.reverse with
  | nil =>
    simp at h; subst h; rfl
  | cons e rest =>
    have : v = (e :: rest).reverse := by rw [← h, List.reverse_reverse]
    simp [shrink, h, shrink_rev, hx, this]

theorem shrink_ne_nil {v : List Nat} (neg : Bool) (hv : v ≠ []) : shrink v neg ≠ [] := by
  induction v using List.reverseRecOn with
  | nil => exact absurd rfl hv
  | append_singleton v x ih =>
    by_cases hx : x = b2n neg * UINT32_MAX
    · subst hx
      by_cases hv2 : v = []
      · subst hv2; simp [shrink_singleton]
      · rw [shrink_concat_eq neg hv2]; exact ih hv2
    · rw [shrink_concat_ne neg hx]; simp

theorem limbs_ok_shrink {v : List Nat} (neg : Bool) (hv : limbs_ok v) : limbs_ok (shrink v neg) := by
  induction v using List.reverseRecOn with
  | nil => exact hv
  | append_singleton v x ih =>
    by_cases hx : x = b2n neg * UINT32_MAX
    · subst hx
      by_cases hv2 : v = []
      · subst hv2; exact hv
      · rw [shrink_concat_eq neg hv2]; exact ih (limbs_ok_append.1 hv).1
    · rw [shrink_concat_ne neg hx]; exact hv

theorem denote_concat_sign (neg : Bool) (v : List Nat) :
    denote ⟨neg, v ++ [b2n neg * UINT32_MAX]⟩ = denote ⟨neg, v⟩ := by
  simp only [denote, limbs_val_append, List.length_append, List.length_singleton, limbs_val]
  cases neg
  · simp [b2n]
  · simp only [b2n, if_true, one_mul, pow_succ]
    have : UINT32_MAX + 1 = BASE := by decide
    push_cast
    have h2 : ((UINT32_MAX : Nat) : Int) = (BASE : Int) - 1 := by omega
    rw [h2]; ring

theorem denote_shrink (neg : Bool) (v : List Nat) :
    denote ⟨neg, shrink v neg⟩ = denote ⟨neg, v⟩ := by
  induction v using List.reverseRecOn with
  | nil => rfl
  | append_singleton v x ih =>
    by_cases hx : x = b2n neg * UINT32_MAX
    · subst hx
      by_cases hv2 : v = []
      · subst hv2; rfl
      · rw [shrink_concat_eq neg hv2, ih, denote_concat_sign]
    · rw [shrink_concat_ne neg hx]

theorem canonical_shrink {v : List Nat} (neg : Bool) (hv : limbs_ok v) (hne : v ≠ []) :
    canonical ⟨neg, shrink v neg⟩ := by
  refine ⟨limbs_ok_shrink neg hv, shrink_ne_nil neg hne, ?_⟩
  induction v using List.reverseRecOn with
  | nil => exact absurd rfl hne
  | append_singleton v x ih =>
    by_cases hx : x = b2n neg * UINT32_MAX
    · subst hx
      by_cases hv2 : v = []
      · subst hv2; simp [shrink_singleton]
      · rw [shrink_concat_eq neg hv2]; exact ih (limbs_ok_append.1 hv).1 hv2
    · rw [shrink_concat_ne neg hx]
      intro _
      simp [hx]

theorem shrink_of_canonical {a : big_integer} (h : canonical a) :
    shrink a.digits_ a.negative_ = a.digits_ := by
  obtain ⟨_, hne, htop⟩ := h
  rcases List.eq_nil_or_concat a.digits_ with h0 | ⟨v, x, hvx⟩
  · exact absurd h0 hne
  · rw [List.concat_eq_append] at hvx
    rw [hvx] at htop ⊢
    by_cases hv2 : v = []
    · subst hv2; rfl
    · have hlen : 1 < (v ++ [x]).length := by
        have : 0 < v.length := List.length_pos.2 hv2
        simp; omega
      have hx : x ≠ b2n a.negative_ * UINT32_MAX := by
        intro hx; apply htop hlen; simp [hx]
      exact shrink_concat_ne _ hx

theorem ripple_length (f : Nat → Nat) (ds : List Nat) (i c : Nat) :
    (ripple f ds i c).length = ds.length := by
  induction ds generalizing i c with
  | nil => rfl
  | cons d ds ih => simp [ripple, ih]

theorem limbs_ok_ripple (f : Nat → Nat) (ds : List Nat) (i c : Nat) :
    limbs_ok (ripple f ds i c) := by
  induction ds generalizing i c with
  | nil => exact limbs_ok_nil
  | cons d ds ih =>
    simp only [ripple]
    exact limbs_ok_cons.2 ⟨Nat.mod_lt _ BASE_pos, ih _ _⟩

theorem ripple_spec (f : Nat → Nat) (ds : List Nat) (i c : Nat) :
    limbs_val (ripple f ds i c) + BASE ^ ds.length * ripple_carry f ds i c
      = limbs_val ds + ext_val f i ds.length + c := by
  induction ds generalizing i c with
  | nil => simp [ripple, ripple_carry, limbs_val, ext_val]
  | cons d ds ih =>
    simp only [ripple, ripple_carry, limbs_val, ext_val, List.length_cons, pow_succ]
    have h := ih (i + 1) ((d + f i + c) / BASE)
    have hdm := Nat.div_add_mod (d + f i + c) BASE
    have e : BASE ^ ds.length * BASE * ripple_carry f ds (i + 1) ((d + f i + c) / BASE)
        = BASE * (BASE ^ ds.length * ripple_carry f ds (i + 1) ((d + f i + c) / BASE)) := by ring
    rw [e]
    have h3 : BASE * (limbs_val (ripple f ds (i + 1) ((d + f i + c) / BASE)) +
        BASE ^ ds.length * ripple_carry f ds (i + 1) ((d + f i + c) / BASE))
        = BASE * (limbs_val ds + ext_val f (i + 1) ds.length + (d + f i + c) / BASE) := by rw [h]
    rw [Nat.mul_add, Nat.mul_add, Nat.mul_add] at h3
    omega

theorem ripple_val (f : Nat → Nat) (ds : List Nat) (i c : Nat) :
    limbs_val (ripple f ds i c) = (limbs_val ds + ext_val f i ds.length + c) % BASE ^ ds.length := by
  have h := ripple_spec f ds i c
  have hlt := limbs_val_lt (limbs_ok_ripple f ds i c)
  rw [ripple_length] at hlt
  rw [← h, Nat.add_mul_mod_self_left, Nat.mod_eq_of_lt hlt]

theorem ext_val_congr {f g : Nat → Nat} {i k n : Nat} (h : ∀ j, j < n → f (i + j) = g (k + j)) :
    ext_val f i n = ext_val g k n := by
  induction n generalizing i k with
  | zero => rfl
  | succ n ih =>
    simp only [ext_val]
    have h0 := h 0 (Nat.succ_pos n)
    simp only [Nat.add_zero] at h0
    rw [h0, ih]
    intro j hj
    have := h (j + 1) (Nat.succ_lt_succ hj)
    rw [show i + 1 + j = i + (j + 1) by omega, show k + 1 + j = k + (j + 1) by omega]
    exact this

theorem ext_val_add (f : Nat → Nat) (i n m : Nat) :
    ext_val f i (n + m) = ext_val f i n + BASE ^ n * ext_val f (i + n) m := by
  induction n generalizing i with
  | zero => simp [ext_val]
  | succ n ih =>
    rw [show n + 1 + m = (n + m) + 1 by omega]
    simp only [ext_val, ih, pow_succ]
    rw [show i + 1 + n = i + (n + 1) by omega]
    ring

theorem ext_val_getD (l : List Nat) : ext_val (fun j => l.getD j 0) 0 l.length = limbs_val l := by
  induction l with
  | nil => rfl
  | cons d ds ih =>
    simp only [List.length_cons, ext_val, limbs_val]
    have : ext_val (fun j => (d :: ds).getD j 0) (0 + 1) ds.length
        = ext_val (fun j => ds.getD j 0) 0 ds.length := by
      apply ext_val_congr
      intro j _
      rw [show 0 + 1 + j = j + 1 by omega]
      simp
    rw [this, ih]
    simp

theorem ext_val_const (w i n : Nat) : ext_val (fun _ => w) i n = limbs_val (List.replicate n w) := by
  induction n generalizing i with
  | zero => rfl
  | succ n ih => simp [ext_val, List.replicate_succ, limbs_val, ih]

theorem ext_val_compl {f : Nat → Nat} (hf : ∀ j, f j ≤ UINT32_MAX) (i n : Nat) :
    ext_val (fun j => UINT32_MAX - f j) i n + ext_val f i n + 1 = BASE ^ n := by
  induction n generalizing i with
  | zero => rfl
  | succ n ih =>
    simp only [ext_val, pow_succ]
    have h1 := ih (i + 1)
    have h2 := hf i
    have h3 : UINT32_MAX + 1 = BASE := by decide
    have h4 : UINT32_MAX - f i + f i = UINT32_MAX := Nat.sub_add_cancel h2
    rw [← h1]
    generalize ext_val (fun j => UINT32_MAX - f j) (i + 1) n = X
    generalize ext_val f (i + 1) n = Y
    generalize UINT32_MAX - f i = Z at h4 ⊢
    rw [← h3, ← h4]
    ring

theorem getD_lt_of_limbs_ok {v : List Nat} (h : limbs_ok v) (i : Nat) : v.getD i 0 < BASE := by
  by_cases hi : i < v.length
  · rw [List.getD_eq_getElem v 0 hi]
    exact h _ (List.getElem_mem hi)
  · rw [List.getD_eq_default v 0 (by omega)]
    exact BASE_pos

theorem get_digit_le {a : big_integer} (h : limbs_ok a.digits_) (i : Nat) :
    get_digit a i ≤ UINT32_MAX := by
  unfold get_digit
  split
  · have := getD_lt_of_limbs_ok h i
    have : BASE = UINT32_MAX + 1 := by decide
    omega
  · cases a.negative_ <;> decide

theorem get_inv_digit_eq (a : big_integer) (i : Nat) :
    get_inv_digit a i = UINT32_MAX - get_digit a i := by
  unfold get_inv_digit get_digit
  split
  · rfl
  · cases a.negative_ <;> rfl

theorem resize_eq_append (v : List Nat) (k fill : Nat) :
    resize v (v.length + k) fill = v ++ List.replicate k fill := by
  unfold resize
  rw [List.take_of_length_le (by omega)]
  congr 2
  omega

theorem resize_length (v : List Nat) (n fill : Nat) : (resize v n fill).length = n := by
  unfold resize
  simp only [List.length_append, List.length_take, List.length_replicate]
  omega

theorem ext_get_digit (a : big_integer) (k : Nat) :
    ext_val (get_digit a) 0 (a.digits_.length + k)
      = limbs_val (a.digits_ ++ List.replicate k (b2n a.negative_ * UINT32_MAX)) := by
  rw [ext_val_add, limbs_val_append]
  congr 1
  · rw [← ext_val_getD]
    apply ext_val_congr
    intro j hj
    simp only [get_digit, Nat.zero_add, hj, if_true]
  · congr 1
    rw [← ext_val_const _ 0]
    apply ext_val_congr
    intro j _
    simp only [get_digit]
    rw [if_neg (by omega)]

theorem pow_len_pos (n : Nat) : 0 < BASE ^ n := pow_pos BASE_pos n

theorem sign_ext_val (a : big_integer) (k : Nat) :
    ((limbs_val (a.digits_ ++ List.replicate k (b2n a.negative_ * UINT32_MAX)) : Nat) : Int)
      = denote a + (if a.negative_ then ((BASE ^ (a.digits_.length + k) : Nat) : Int) else 0) := by
  rw [limbs_val_append]
  unfold denote
  cases a.negative_
  · simp [b2n, limbs_val_replicate_zero]
  · simp only [b2n, if_true, one_mul]
    have h := limbs_val_replicate_max k
    have h2 : limbs_val (List.replicate k UINT32_MAX) = BASE ^ k - 1 := by omega
    have hp := pow_len_pos k
    rw [h2, pow_add]
    push_cast [Nat.cast_sub hp]
    ring

theorem denote_lt {a : big_integer} (h : limbs_ok a.digits_) :
    denote a < ((BASE ^ a.digits_.length : Nat) : Int) := by
  have := limbs_val_lt h
  unfold denote
  split <;> omega

theorem denote_ge {a : big_integer} (h : limbs_ok a.digits_) :
    -((BASE ^ a.digits_.length : Nat) : Int) ≤ denote a := by
  have := limbs_val_lt h
  unfold denote
  split <;> omega

theorem denote_neg_iff {a : big_integer} (h : limbs_ok a.digits_) :
    denote a < 0 ↔ a.negative_ = true := by
  have := limbs_val_lt h
  have hp := pow_len_pos a.digits_.length
  unfold denote
  cases a.negative_
  · simp only [Bool.false_eq_true, if_false, iff_false]; omega
  · simp only [if_true, iff_true]; omega

theorem getLastD_concat (v : List Nat) (x : Nat) : (v ++ [x]).getLastD 0 = x := by
  cases v <;> simp [List.getLastD]

theorem top_bit_concat (v : List Nat) (x : Nat) :
    top_bit (v ++ [x]) = decide (2147483648 ≤ x) := by
  unfold top_bit
  rw [getLastD_concat]
  by_cases h : 2147483648 ≤ x
  · have : 1 ≤ x / 2 ^ 31 := by
      rw [Nat.le_div_iff_mul_le (by norm_num)]; omega
    simp only [h, decide_True, decide_eq_true_eq]
    omega
  · have : x / 2 ^ 31 = 0 := by
      rw [Nat.div_eq_zero_iff (by norm_num)]; omega
    simp only [h, decide_False, decide_eq_false_iff_not, not_not]
    exact this

theorem denote_concat (neg : Bool) (v : List Nat) (x : Nat) :
    denote ⟨neg, v ++ [x]⟩ = ((limbs_val v : Nat) : Int) + ((BASE ^ v.length : Nat) : Int) * (x : Int)
      - (if neg then ((BASE ^ v.length : Nat) : Int) * (BASE : Int) else 0) := by
  unfold denote
  simp only [limbs_val_append, limbs_val, List.length_append, List.length_singleton, pow_succ]
  cases neg <;> simp

/-- Reading a buffer as a two's-complement number: when its limbs hold `S`
modulo `BASE ^ n` and `S` fits in `32 n` bits as a signed number, the sign read
off the top limb is the sign of `S` and the buffer denotes `S`. -/
theorem denote_top_bit {d : List Nat} {S : Int} (hd : limbs_ok d) (hne : d ≠ [])
    (hS : ((limbs_val d : Nat) : Int) = S % ((BASE ^ d.length : Nat) : Int))
    (hlo : -((BASE ^ d.length : Nat) : Int) ≤ 2 * S)
    (hhi : 2 * S < ((BASE ^ d.length : Nat) : Int)) :
    denote ⟨top_bit d, d⟩ = S := by
  rcases List.eq_nil_or_concat d with h0 | ⟨v, x, hvx⟩
  · exact absurd h0 hne
  rw [List.concat_eq_append] at hvx
  subst hvx
  have hx : x < BASE := (limbs_ok_append.1 hd).2 x (by simp)
  have hv := limbs_val_lt (limbs_ok_append.1 hd).1
  have hlen : (v ++ [x]).length = v.length + 1 := by simp
  rw [denote_concat, top_bit_concat]
  rw [hlen, pow_succ] at hS hlo hhi
  rw [limbs_val_append] at hS
  simp only [limbs_val, Nat.mul_zero, Nat.add_zero] at hS
  have hP := pow_len_pos v.length
  obtain ⟨P, hPd⟩ : ∃ P, P = BASE ^ v.length := ⟨_, rfl⟩
  obtain ⟨L, hLd⟩ : ∃ L, L = limbs_val v := ⟨_, rfl⟩
  rw [← hPd] at hS hlo hhi hP hv ⊢
  rw [← hLd] at hS hv ⊢
  have hB : BASE = 4294967296 := by decide
  rw [hB] at hS hlo hhi hx ⊢
  push_cast at hS hlo hhi ⊢
  by_cases hs : 0 ≤ S
  · rw [Int.emod_eq_of_lt hs (by omega)] at hS
    have hx2 : ¬ 2147483648 ≤ x := by
      intro hcon
      have : P * 2147483648 ≤ P * x := Nat.mul_le_mul_left P hcon
      have : ((P * 2147483648 : Nat) : Int) ≤ ((P * x : Nat) : Int) := by exact_mod_cast this
      push_cast at this
      omega
    simp only [hx2, decide_False, Bool.false_eq_true, if_false]
    omega
  · have e : S % ((P : Int) * 4294967296) = S + (P : Int) * 4294967296 := by
      rw [← Int.add_mul_emod_self_left S ((P : Int) * 4294967296) 1]
      rw [Int.mul_one]
      exact Int.emod_eq_of_lt (by omega) (by omega)
    rw [e] at hS
    have hx2 : 2147483648 ≤ x := by
      by_contra hcon
      have : P * x ≤ P * 2147483647 := Nat.mul_le_mul_left P (by omega)
      have : ((P * x : Nat) : Int) ≤ ((P * 2147483647 : Nat) : Int) := by exact_mod_cast this
      push_cast at this
      omega
    simp only [hx2, decide_True, if_true]
    omega

theorem pow_len_mono {m n : Nat} (h : m ≤ n) : BASE ^ m ≤ BASE ^ n :=
  Nat.pow_le_pow_right BASE_pos h

/-- A canonical value of more than one limb is too large in magnitude for fewer limbs. -/
theorem canonical_len_bound {a : big_integer} (h : canonical a) (hl : 1 < a.digits_.length) :
    if a.negative_ then denote a < -((BASE ^ (a.digits_.length - 1) : Nat) : Int)
    else ((BASE ^ (a.digits_.length - 1) : Nat) : Int) ≤ denote a := by
  obtain ⟨neg, d⟩ := a
  obtain ⟨hok, hne, htop⟩ := h
  simp only at hok hne htop hl ⊢
  rcases List.eq_nil_or_concat d with h0 | ⟨v, x, hvx⟩
  · exact absurd h0 hne
  rw [List.concat_eq_append] at hvx
  subst hvx
  have hx : x < BASE := (limbs_ok_append.1 hok).2 x (by simp)
  have hv := limbs_val_lt (limbs_ok_append.1 hok).1
  have hxw : x ≠ b2n neg * UINT32_MAX := by
    intro e; apply htop hl; simp [e]
  have hlen : (v ++ [x]).length - 1 = v.length := by simp
  rw [hlen, denote_concat]
  have hP := pow_len_pos v.length
  obtain ⟨P, hPd⟩ : ∃ P, P = BASE ^ v.length := ⟨_, rfl⟩
  obtain ⟨L, hLd⟩ : ∃ L, L = limbs_val v := ⟨_, rfl⟩
  rw [← hPd] at hP hv ⊢
  rw [← hLd] at hv ⊢
  have hB : BASE = 4294967296 := by decide
  rw [hB] at hx ⊢
  cases neg
  · simp only [b2n, Bool.false_eq_true, if_false, Nat.zero_mul] at hxw ⊢
    have : P * 1 ≤ P * x := Nat.mul_le_mul_left P (by omega)
    have : ((P * 1 : Nat) : Int) ≤ ((P * x : Nat) : Int) := by exact_mod_cast this
    push_cast at this ⊢
    omega
  · simp only [b2n, if_true, Nat.one_mul] at hxw ⊢
    have hU : UINT32_MAX = 4294967295 := rfl
    rw [hU] at hxw
    have : P * x ≤ P * 4294967294 := Nat.mul_le_mul_left P (by omega)
    have : ((P * x : Nat) : Int) ≤ ((P * 4294967294 : Nat) : Int) := by exact_mod_cast this
    push_cast at this ⊢
    omega

theorem canonical_length_le {a b : big_integer} (ha : canonical a) (hb : canonical b)
    (hd : denote a = denote b) :
    b.digits_.length ≤ a.digits_.length := by
  by_contra hcon
  have hl : 1 < b.digits_.length := by
    have : 0 < a.digits_.length := List.length_pos.2 ha.2.1
    omega
  have hbd := canonical_len_bound hb hl
  have h1 := denote_lt ha.1
  have h2 := denote_ge ha.1
  have hm : BASE ^ a.digits_.length ≤ BASE ^ (b.digits_.length - 1) := pow_len_mono (by omega)
  have hm2 : ((BASE ^ a.digits_.length : Nat) : Int) ≤ ((BASE ^ (b.digits_.length - 1) : Nat) : Int) := by
    exact_mod_cast hm
  cases hbn : b.negative_
  · rw [hbn] at hbd; simp only [Bool.false_eq_true, if_false] at hbd; omega
  · rw [hbn] at hbd; simp only [if_true] at hbd; omega

/-- Canonical form is unique: two canonical values that denote the same integer are equal. -/
theorem canonical_unique {a b : big_integer} (ha : canonical a) (hb : canonical b)
    (hd : denote a = denote b) : a = b := by
  have hs : a.negative_ = b.negative_ := by
    have h1 := denote_neg_iff ha.1
    have h2 := denote_neg_iff hb.1
    rw [hd] at h1
    cases ha' : a.negative_ <;> cases hb' : b.negative_ <;> simp_all
  have hl : a.digits_.length = b.digits_.length :=
    Nat.le_antisymm (canonical_length_le hb ha hd.symm) (canonical_length_le ha hb hd)
  have hv : limbs_val a.digits_ = limbs_val b.digits_ := by
    unfold denote at hd
    rw [hs, hl] at hd
    omega
  have := limbs_val_inj ha.1 hb.1 hl hv
  obtain ⟨an, ad⟩ := a
  obtain ⟨bn, bd⟩ := b
  simp only at hs this
  rw [hs, this]

theorem canonical_ZERO : canonical ZERO := by decide

theorem denote_ZERO : denote ZERO = 0 := by decide

theorem eq_ZERO_of_denote {a : big_integer} (ha : canonical a) (h : denote a = 0) : a = ZERO :=
  canonical_unique ha canonical_ZERO (by rw [h, denote_ZERO])

theorem emod_signs (S M : Int) (p q : Bool) :
    (S + (if p then M else 0) + (if q then M else 0)) % M = S % M := by
  cases p <;> cases q <;> simp

theorem max_add_two_split (la lb : Nat) :
    ∃ ka kb, max la lb + 2 = la + ka ∧ max la lb + 2 = lb + kb ∧ 2 ≤ ka ∧ 2 ≤ kb :=
  ⟨max la lb + 2 - la, max la lb + 2 - lb, by omega, by omega, by omega, by omega⟩

theorem get_digit_length (a : big_integer) :
    get_digit a a.digits_.length = b2n a.negative_ * UINT32_MAX := by
  simp [get_digit]

/-- Range of a value against a buffer with two more limbs. -/
theorem denote_range_two {a : big_integer} (h : limbs_ok a.digits_) {N k : Nat}
    (hN : N = a.digits_.length + k) (hk : 2 ≤ k) :
    -((BASE ^ N : Nat) : Int) ≤ 4 * denote a ∧ 4 * denote a < ((BASE ^ N : Nat) : Int) := by
  have h1 := denote_lt h
  have h2 := denote_ge h
  have hm : BASE ^ (a.digits_.length + 1) ≤ BASE ^ N := pow_len_mono (by omega)
  rw [pow_succ] at hm
  have hm2 : ((BASE ^ a.digits_.length * BASE : Nat) : Int) ≤ ((BASE ^ N : Nat) : Int) := by
    exact_mod_cast hm
  have hB : BASE = 4294967296 := by decide
  rw [hB] at hm2 h1 h2 ⊢
  push_cast at hm2 h1 h2 ⊢
  constructor <;> omega

theorem operator_plus_eq_denote {a b : big_integer} (ha : limbs_ok a.digits_)
    (hb : limbs_ok b.digits_) : denote (operator_plus_eq a b) = denote a + denote b := by
  obtain ⟨ka, kb, hNa, hNb, hka, hkb⟩ := max_add_two_split a.digits_.length b.digits_.length
  unfold operator_plus_eq
  simp only [denote_shrink]
  rw [get_digit_length]
  generalize hN : max a.digits_.length b.digits_.length + 2 = N at hNa hNb ⊢
  have hd0 : resize a.digits_ N (b2n a.negative_ * UINT32_MAX)
      = a.digits_ ++ List.replicate ka (b2n a.negative_ * UINT32_MAX) := by
    rw [hNa, resize_eq_append]
  have hlen0 : (resize a.digits_ N (b2n a.negative_ * UINT32_MAX)).length = N := resize_length _ _ _
  have ra := denote_range_two ha hNa hka
  have rb := denote_range_two hb hNb hkb
  apply denote_top_bit (limbs_ok_ripple _ _ _ _)
  · intro h
    have := congrArg List.length h
    rw [ripple_length, hlen0] at this
    simp at this; omega
  · rw [ripple_val, ripple_length, hlen0, Int.natCast_mod]
    rw [← emod_signs (denote a + denote b) _ a.negative_ b.negative_]
    congr 1
    have e1 := sign_ext_val a ka
    have e2 := sign_ext_val b kb
    rw [← hd0, ← hNa] at e1
    rw [← ext_get_digit, ← hNb] at e2
    rw [Nat.cast_add, Nat.cast_add, e1, e2, Nat.cast_zero]
    ring
  · rw [ripple_length, hlen0]; omega
  · rw [ripple_length, hlen0]; omega

/-- Result of a ripple loop read as a two's-complement number. -/
theorem ripple_denote {d0 : List Nat} {f : Nat → Nat} {c : Nat} {S t : Int} (hne : d0 ≠ [])
    (hT : ((limbs_val d0 + ext_val f 0 d0.length + c : Nat) : Int)
      = S + t * ((BASE ^ d0.length : Nat) : Int))
    (hlo : -((BASE ^ d0.length : Nat) : Int) ≤ 2 * S)
    (hhi : 2 * S < ((BASE ^ d0.length : Nat) : Int)) :
    denote ⟨top_bit (ripple f d0 0 c), ripple f d0 0 c⟩ = S := by
  apply denote_top_bit (limbs_ok_ripple _ _ _ _)
  · intro h
    have := congrArg List.length h
    rw [ripple_length] at this
    exact hne (List.length_eq_zero.1 this)
  · rw [ripple_val, ripple_length, Int.natCast_mod, hT, Int.add_mul_emod_self]
  · rw [ripple_length]; exact hlo
  · rw [ripple_length]; exact hhi

theorem ripple_ne_nil {d0 : List Nat} (f : Nat → Nat) (c : Nat) (hne : d0 ≠ []) :
    ripple f d0 0 c ≠ [] := by
  intro h
  have := congrArg List.length h
  rw [ripple_length] at this
  exact hne (List.length_eq_zero.1 this)

theorem resize_ne_nil (v : List Nat) {n : Nat} (fill : Nat) (hn : 0 < n) : resize v n fill ≠ [] := by
  intro h
  have := congrArg List.length h
  rw [resize_length] at this
  simp at this; omega

theorem operator_plus_eq_canonical (a b : big_integer) : canonical (operator_plus_eq a b) := by
  unfold operator_plus_eq
  exact canonical_shrink _ (limbs_ok_ripple _ _ _ _)
    (ripple_ne_nil _ _ (resize_ne_nil _ _ (by omega)))

theorem operator_minus_eq_canonical (a b : big_integer) : canonical (operator_minus_eq a b) := by
  unfold operator_minus_eq
  exact canonical_shrink _ (limbs_ok_ripple _ _ _ _)
    (ripple_ne_nil _ _ (resize_ne_nil _ _ (by omega)))

theorem ext_get_inv_digit {b : big_integer} (hb : limbs_ok b.digits_) (N : Nat) :
    ext_val (get_inv_digit b) 0 N + ext_val (get_digit b) 0 N + 1 = BASE ^ N := by
  rw [← ext_val_compl (f := get_digit b) (fun j => get_digit_le hb j) 0 N]
  congr 2
  apply ext_val_congr
  intro j _
  exact get_inv_digit_eq b _

theorem operator_minus_eq_denote {a b : big_integer} (ha : limbs_ok a.digits_)
    (hb : limbs_ok b.digits_) : denote (operator_minus_eq a b) = denote a - denote b := by
  obtain ⟨ka, kb, hNa, hNb, hka, hkb⟩ := max_add_two_split a.digits_.length b.digits_.length
  unfold operator_minus_eq
  simp only [denote_shrink]
  rw [get_digit_length]
  generalize hN : max a.digits_.length b.digits_.length + 2 = N at hNa hNb ⊢
  have hd0 : resize a.digits_ N (b2n a.negative_ * UINT32_MAX)
      = a.digits_ ++ List.replicate ka (b2n a.negative_ * UINT32_MAX) := by
    rw [hNa, resize_eq_append]
  have hlen0 : (resize a.digits_ N (b2n a.negative_ * UINT32_MAX)).length = N := resize_length _ _ _
  have ra := denote_range_two ha hNa hka
  have rb := denote_range_two hb hNb hkb
  have e1 := sign_ext_val a ka
  have e2 := sign_ext_val b kb
  rw [← hd0, ← hNa] at e1
  rw [← ext_get_digit, ← hNb] at e2
  have e3 := ext_get_inv_digit hb N
  have e3' : ((ext_val (get_inv_digit b) 0 N : Nat) : Int)
      = ((BASE ^ N : Nat) : Int) - 1 - ((ext_val (get_digit b) 0 N : Nat) : Int) := by
    have : ((ext_val (get_inv_digit b) 0 N + ext_val (get_digit b) 0 N + 1 : Nat) : Int)
        = ((BASE ^ N : Nat) : Int) := by rw [e3]
    rw [Nat.cast_add, Nat.cast_add, Nat.cast_one] at this
    omega
  apply ripple_denote (t := (if a.negative_ then 1 else 0) + 1 - (if b.negative_ then 1 else 0))
    (resize_ne_nil _ _ (by omega))
  · rw [hlen0, Nat.cast_add, Nat.cast_add, e1, e3', e2, Nat.cast_one]
    cases a.negative_ <;> cases b.negative_ <;> simp <;> ring
  · rw [hlen0]; omega
  · rw [hlen0]; omega

theorem limbs_val_map_compl {v : List Nat} (h : limbs_ok v) :
    limbs_val (v.map (fun x => UINT32_MAX - x)) + limbs_val v + 1 = BASE ^ v.length := by
  induction v with
  | nil => rfl
  | cons d ds ih =>
    rw [limbs_ok_cons] at h
    have h1 := ih h.2
    simp only [List.map_cons, limbs_val, List.length_cons, pow_succ]
    have h3 : UINT32_MAX + 1 = BASE := by decide
    have h2 : d ≤ UINT32_MAX := by have := h.1; omega
    have h4 : UINT32_MAX - d + d = UINT32_MAX := Nat.sub_add_cancel h2
    rw [← h1]
    generalize limbs_val (List.map (fun x => UINT32_MAX - x) ds) = X
    generalize limbs_val ds = Y
    generalize UINT32_MAX - d = Z at h4 ⊢
    rw [← h3, ← h4]
    ring

theorem limbs_ok_sign_ext {a : big_integer} (h : limbs_ok a.digits_) (k : Nat) :
    limbs_ok (a.digits_ ++ List.replicate k (b2n a.negative_ * UINT32_MAX)) :=
  limbs_ok_append.2 ⟨h, limbs_ok_replicate (sign_word_lt _)⟩

theorem ext_val_zero (i n : Nat) : ext_val (fun _ => 0) i n = 0 := by
  rw [ext_val_const, limbs_val_replicate_zero]

/-- The buffer computed by `negate` denotes the negated value, with the sign read off its top limb. -/
theorem negate_buffer {a : big_integer} (ha : limbs_ok a.digits_) :
    let d := ripple (fun _ => 0)
      ((resize a.digits_ (a.digits_.length + 2) (get_digit a a.digits_.length)).map
        (fun x => UINT32_MAX - x)) 0 1
    denote ⟨top_bit d, d⟩ = -denote a := by
  intro d
  have hd0 : resize a.digits_ (a.digits_.length + 2) (get_digit a a.digits_.length)
      = a.digits_ ++ List.replicate 2 (b2n a.negative_ * UINT32_MAX) := by
    rw [get_digit_length, resize_eq_append]
  have ra := denote_range_two ha (rfl : a.digits_.length + 2 = a.digits_.length + 2) (le_refl 2)
  have e1 := sign_ext_val a 2
  have e3 := limbs_val_map_compl (limbs_ok_sign_ext ha 2)
  have hlen : (a.digits_ ++ List.replicate 2 (b2n a.negative_ * UINT32_MAX)).length
      = a.digits_.length + 2 := by simp
  rw [hlen] at e3
  have e3' : ((limbs_val ((a.digits_ ++ List.replicate 2 (b2n a.negative_ * UINT32_MAX)).map
      (fun x => UINT32_MAX - x)) : Nat) : Int)
      = ((BASE ^ (a.digits_.length + 2) : Nat) : Int) - 1
        - ((limbs_val (a.digits_ ++ List.replicate 2 (b2n a.negative_ * UINT32_MAX)) : Nat) : Int) := by
    have := congrArg (fun n : Nat => (n : Int)) e3
    simp only [Nat.cast_add, Nat.cast_one] at this
    omega
  show denote ⟨top_bit d, d⟩ = -denote a
  have hdd : d = ripple (fun _ => 0)
      ((a.digits_ ++ List.replicate 2 (b2n a.negative_ * UINT32_MAX)).map
        (fun x => UINT32_MAX - x)) 0 1 := by
    show ripple _ _ 0 1 = _
    rw [hd0]
  rw [hdd]
  have hlen2 : ((a.digits_ ++ List.replicate 2 (b2n a.negative_ * UINT32_MAX)).map
      (fun x => UINT32_MAX - x)).length = a.digits_.length + 2 := by simp
  apply ripple_denote (t := 1 - (if a.negative_ then 1 else 0))
  · intro h
    have := congrArg List.length h
    rw [hlen2] at this
    simp at this
  · rw [hlen2, ext_val_zero, Nat.cast_add, Nat.cast_add, e3', e1, Nat.cast_one, Nat.cast_zero]
    cases a.negative_ <;> simp <;> ring
  · rw [hlen2]; omega
  · rw [hlen2]; omega

theorem ne_ZERO_denote {a : big_integer} (ha : canonical a) (h : a ≠ ZERO) : denote a ≠ 0 :=
  fun h0 => h (eq_ZERO_of_denote ha h0)

theorem negate_denote {a : big_integer} (ha : canonical a) : denote (negate a) = -denote a := by
  unfold negate
  split
  · rename_i h; rw [h, denote_ZERO]; rfl
  · rename_i h
    have hb := negate_buffer ha.1
    simp only at hb
    simp only [denote_shrink]
    obtain ⟨d, hd⟩ : ∃ d, d = ripple (fun _ => 0)
      ((resize a.digits_ (a.digits_.length + 2) (get_digit a a.digits_.length)).map
        (fun x => UINT32_MAX - x)) 0 1 := ⟨_, rfl⟩
    rw [← hd] at hb ⊢
    have hdok : limbs_ok d := by rw [hd]; exact limbs_ok_ripple _ _ _ _
    have h1 := denote_neg_iff (a := ⟨top_bit d, d⟩) hdok
    have h2 := denote_neg_iff ha.1
    have h3 := ne_ZERO_denote ha h
    rw [hb] at h1
    simp only at h1
    have htb : top_bit d = !a.negative_ := by
      cases ht : top_bit d <;> cases hn : a.negative_ <;> rw [ht] at h1 <;> rw [hn] at h2 <;>
        simp only [Bool.not_true, Bool.not_false] <;> simp at h1 h2 <;> omega
    rw [← htb]
    exact hb

theorem negate_canonical {a : big_integer} (ha : canonical a) : canonical (negate a) := by
  unfold negate
  split
  · exact ha
  · exact canonical_shrink _ (limbs_ok_ripple _ _ _ _) (ripple_ne_nil _ _ (by
      intro h
      have := congrArg List.length h
      rw [List.length_map, resize_length] at this
      simp at this))

theorem abs_canonical {a : big_integer} (ha : canonical a) : canonical (abs a) := by
  unfold abs
  split
  · exact negate_canonical ha
  · exact ha

theorem abs_denote {a : big_integer} (ha : canonical a) : denote (abs a) = |denote a| := by
  have h2 := denote_neg_iff ha.1
  unfold abs
  split
  · rename_i h
    rw [negate_denote ha, abs_of_neg (h2.2 h)]
  · rename_i h
    rw [abs_of_nonneg]
    by_contra hc
    exact h (h2.1 (by omega))

theorem abs_negative {a : big_integer} (ha : canonical a) : (abs a).negative_ = false := by
  have h1 := denote_neg_iff (abs_canonical ha).1
  rw [abs_denote ha] at h1
  cases h : (abs a).negative_
  · rfl
  · have := h1.2 h
    have := abs_nonneg (denote a)
    omega

/-! ## Division, ordering, addition and subtraction -/

/-- C1 (the code breaks the claim): for the canonical operands `a = 2^63 * (2^64 + 1)`
and `b = 2^63`, `operator/=` returns `2^64` and `operator%=` returns `2^63`,
so the remainder is not smaller in magnitude than the divisor and the
quotient is not the truncating quotient `2^64 + 1`. -/
theorem C1_division_wrong_at_early_stop :
    canonical ⟨false, [0, 2147483648, 0, 2147483648]⟩ ∧
    canonical ⟨false, [0, 2147483648]⟩ ∧
    denote ⟨false, [0, 2147483648]⟩ ≠ 0 ∧
    operator_div_eq ⟨false, [0, 2147483648, 0, 2147483648]⟩ ⟨false, [0, 2147483648]⟩
      = .ok ⟨false, [0, 0, 1]⟩ ∧
    operator_mod_eq ⟨false, [0, 2147483648, 0, 2147483648]⟩ ⟨false, [0, 2147483648]⟩
      = .ok ⟨false, [0, 2147483648]⟩ ∧
    ¬ (|denote ⟨false, [0, 2147483648]⟩| < |denote ⟨false, [0, 2147483648]⟩|) ∧
    denote ⟨false, [0, 0, 1]⟩
      ≠ Int.tdiv (denote ⟨false, [0, 2147483648, 0, 2147483648]⟩) (denote ⟨false, [0, 2147483648]⟩) := by
  refine ⟨by decide, by decide, by decide, rfl, rfl, by decide, by decide⟩

/-- C2 (the code breaks the claim): for the canonical negative operands `a = -1`
and `b = -2^32 - 1`, `operator<` answers `true` because `a` stores fewer
limbs, although `a` is the larger integer. -/
theorem C2_less_wrong_for_negatives :
    canonical (of_long_long (-1)) ∧ canonical (of_long_long (-4294967297)) ∧
    denote (of_long_long (-1)) = -1 ∧ denote (of_long_long (-4294967297)) = -4294967297 ∧
    operator_lt (of_long_long (-1)) (of_long_long (-4294967297)) = true ∧
    ¬ (denote (of_long_long (-1)) < denote (of_long_long (-4294967297))) := by
  refine ⟨by decide, by decide, by decide, by decide, by decide, by decide⟩

/-- C3: for canonical `a` and `b`, `a + b` is canonical, denotes the sum of
the integers `a` and `b` denote, and its sign flag is the sign of that sum. -/
theorem C3_add_correct (a b : big_integer) (ha : canonical a) (hb : canonical b) :
    canonical (operator_plus_eq a b) ∧
    denote (operator_plus_eq a b) = denote a + denote b ∧
    ((operator_plus_eq a b).negative_ = true ↔ denote a + denote b < 0) := by
  refine ⟨operator_plus_eq_canonical a b, operator_plus_eq_denote ha.1 hb.1, ?_⟩
  rw [← operator_plus_eq_denote ha.1 hb.1]
  exact (denote_neg_iff (operator_plus_eq_canonical a b).1).symm

/-- C3 at the operands of the specification's example,
`BigInt("123456789123456789") + BigInt("1") == BigInt("123456789123456790")`. -/
theorem C3_add_correct_witness :
    of_string "123456789123456789".toList = .ok ⟨false, [2899336981, 28744523]⟩ ∧
    of_string "1".toList = .ok ⟨false, [1]⟩ ∧
    of_string "123456789123456790".toList
      = .ok (operator_plus_eq ⟨false, [2899336981, 28744523]⟩ ⟨false, [1]⟩) ∧
    canonical ⟨false, [2899336981, 28744523]⟩ ∧ canonical ⟨false, [1]⟩ ∧
    (canonical (operator_plus_eq ⟨false, [2899336981, 28744523]⟩ ⟨false, [1]⟩) ∧
      denote (operator_plus_eq ⟨false, [2899336981, 28744523]⟩ ⟨false, [1]⟩)
        = denote ⟨false, [2899336981, 28744523]⟩ + denote ⟨false, [1]⟩ ∧
      ((operator_plus_eq ⟨false, [2899336981, 28744523]⟩ ⟨false, [1]⟩).negative_ = true ↔
        denote ⟨false, [2899336981, 28744523]⟩ + denote ⟨false, [1]⟩ < 0)) :=
  ⟨rfl, rfl, rfl, by decide, by decide,
    C3_add_correct ⟨false, [2899336981, 28744523]⟩ ⟨false, [1]⟩ (by decide) (by decide)⟩

/-- C5: for canonical `a` and `b`, `(a + b) - b` is `a` itself: same sign flag and same limbs. -/
theorem C5_add_then_sub (a b : big_integer) (ha : canonical a) (hb : canonical b) :
    operator_minus_eq (operator_plus_eq a b) b = a ∧
    operator_eq (operator_minus_eq (operator_plus_eq a b) b) a = true := by
  have h : operator_minus_eq (operator_plus_eq a b) b = a := by
    apply canonical_unique (operator_minus_eq_canonical _ _) ha
    rw [operator_minus_eq_denote (operator_plus_eq_canonical a b).1 hb.1,
      operator_plus_eq_denote ha.1 hb.1]
    ring
  refine ⟨h, ?_⟩
  rw [h]
  simp [operator_eq]

/-- C5 at `a = -2^32` (one limb) and `b = 2^33 - 1` (two limbs). -/
theorem C5_add_then_sub_witness :
    canonical ⟨true, [0]⟩ ∧ canonical ⟨false, [4294967295, 1]⟩ ∧
    (operator_minus_eq (operator_plus_eq ⟨true, [0]⟩ ⟨false, [4294967295, 1]⟩)
      ⟨false, [4294967295, 1]⟩ = ⟨true, [0]⟩ ∧
    operator_eq (operator_minus_eq (operator_plus_eq ⟨true, [0]⟩ ⟨false, [4294967295, 1]⟩)
      ⟨false, [4294967295, 1]⟩) ⟨true, [0]⟩ = true) :=
  ⟨by decide, by decide, C5_add_then_sub ⟨true, [0]⟩ ⟨false, [4294967295, 1]⟩ (by decide) (by decide)⟩

/-- C8 (the code breaks the claim): `BigInt(1) >> 64` asks `erase` to remove two
limbs from a vector that holds one, which is undefined, instead of giving `0`. -/
theorem C8_shift_right_past_the_limbs :
    canonical (of_long_long 1) ∧ (of_long_long 1).digits_.length = 1 ∧
    operator_shr_eq (of_long_long 1) 64 = .error .undefined_behavior := by
  refine ⟨by decide, by decide, rfl⟩

/-! ## Equality, shifts past the buffer and the division paths -/

/-- C11: for canonical `a` and `b`, `operator==` answers `true` exactly when
`a` and `b` denote the same integer, and `operator!=` is its negation. -/
theorem C11_eq_is_numeric (a b : big_integer) (ha : canonical a) (hb : canonical b) :
    (operator_eq a b = true ↔ denote a = denote b) ∧
    operator_ne a b = !operator_eq a b := by
  refine ⟨⟨fun h => ?_, fun h => ?_⟩, rfl⟩
  · simp only [operator_eq, Bool.and_eq_true, beq_iff_eq] at h
    obtain ⟨an, ad⟩ := a
    obtain ⟨bn, bd⟩ := b
    simp only at h
    rw [h.1, h.2]
  · have := canonical_unique ha hb h
    subst this
    simp [operator_eq]

/-- C11 at `a = b = -2^32`. -/
theorem C11_eq_is_numeric_witness :
    canonical ⟨true, [0]⟩ ∧
    ((operator_eq ⟨true, [0]⟩ ⟨true, [0]⟩ = true ↔ denote ⟨true, [0]⟩ = denote ⟨true, [0]⟩) ∧
      operator_ne ⟨true, [0]⟩ ⟨true, [0]⟩ = !operator_eq ⟨true, [0]⟩ ⟨true, [0]⟩) :=
  ⟨by decide, C11_eq_is_numeric ⟨true, [0]⟩ ⟨true, [0]⟩ (by decide) (by decide)⟩

/-- C12 (the code breaks the claim): for `a = -1`, which stores one limb, and
`n = 64` the number `n / 32 = 2` of limbs to erase exceeds the limb count, and
`operator>>=` runs into undefined behaviour. -/
theorem C12_erase_count_exceeds_limbs :
    canonical (of_long_long (-1)) ∧
    (of_long_long (-1)).digits_.length < 64 / BASE_POW ∧
    operator_shr_eq (of_long_long (-1)) 64 = .error .undefined_behavior := by
  refine ⟨by decide, by decide, rfl⟩

/-- C15 (the code breaks the claim): the nonzero divisor `b = -2^32` is stored as
the single limb `0`; the inline `~0 + 1` wraps to `0` in 32 bits, so the word
handed to `div_short` is zero, not `|b|`, and both operators divide by zero. -/
theorem C15_short_divisor_zero :
    canonical (of_long_long (-4294967296)) ∧
    (of_long_long (-4294967296)).digits_.length = 1 ∧
    denote (of_long_long (-4294967296)) = -4294967296 ∧
    short_divisor (of_long_long (-4294967296)) = 0 ∧
    operator_div_eq (of_long_long 7) (of_long_long (-4294967296)) = .error .undefined_behavior ∧
    operator_mod_eq (of_long_long 7) (of_long_long (-4294967296)) = .error .undefined_behavior := by
  refine ⟨by decide, by decide, by decide, by decide, rfl, rfl⟩

/-- C16 (the code breaks the claim): `b = 2^32` stores two limbs and `a = -2^32`
stores one, yet `|a| = |b|`; the short-circuit returns the quotient `0` and
the remainder `a`, where the truncating quotient is `-1` and the remainder `0`. -/
theorem C16_more_limbs_not_larger :
    canonical (of_long_long (-4294967296)) ∧ canonical (of_long_long 4294967296) ∧
    (of_long_long (-4294967296)).digits_.length < (of_long_long 4294967296).digits_.length ∧
    |denote (of_long_long 4294967296)| = |denote (of_long_long (-4294967296))| ∧
    operator_div_eq (of_long_long (-4294967296)) (of_long_long 4294967296) = .ok ZERO ∧
    Int.tdiv (denote (of_long_long (-4294967296))) (denote (of_long_long 4294967296)) = -1 ∧
    operator_mod_eq (of_long_long (-4294967296)) (of_long_long 4294967296)
      = .ok (of_long_long (-4294967296)) ∧
    Int.tmod (denote (of_long_long (-4294967296))) (denote (of_long_long 4294967296)) = 0 := by
  refine ⟨by decide, by decide, by decide, by decide, rfl, by decide, rfl, by decide⟩

/-- C17 (the code breaks the claim): for the normalized divisor
`y = 2^31 * 2^32 + (2^32 - 1)` and the remainder `R = 3 * 2^29 * 2^64 < y * 2^32`
(`n = 2`, `k = 0`) the estimate is `3 * 2^30`, two above the true quotient limb
`3 * 2^30 - 2`; after the single correction the trial product still exceeds `R`,
`offset_sub` wraps around, and `R / y` comes out as `3 * 2^30 - 1`. -/
theorem C17_estimate_two_too_large :
    canonical ⟨false, [4294967295, 2147483648]⟩ ∧ canonical ⟨false, [0, 0, 1610612736]⟩ ∧
    limbs_val [0, 0, 1610612736] < limbs_val [4294967295, 2147483648] * BASE ∧
    min (BASE - 1) (div21 (get_digit ⟨false, [0, 0, 1610612736]⟩ 2)
      (get_digit ⟨false, [0, 0, 1610612736]⟩ 1) (get_digit ⟨false, [4294967295, 2147483648]⟩ 1))
      = 3221225472 ∧
    limbs_val [0, 0, 1610612736] / limbs_val [4294967295, 2147483648] = 3221225470 ∧
    limbs_val [0, 0, 1610612736]
      < limbs_val (operator_minus_eq (mul_short ⟨false, [4294967295, 2147483648]⟩ 3221225472)
          ⟨false, [4294967295, 2147483648]⟩).digits_ ∧
    div_step ⟨false, [0, 0, 1610612736]⟩ ⟨false, [4294967295, 2147483648]⟩ 2 0
      = .ok (⟨false, [3221225471, 3221225473, 4294967295]⟩, 3221225471) ∧
    operator_div_eq ⟨false, [0, 0, 1610612736]⟩ ⟨false, [4294967295, 2147483648]⟩
      = .ok ⟨false, [3221225471]⟩ := by
  refine ⟨by decide, by decide, by decide, by decide, by decide, by decide, rfl, rfl⟩

/-- C18 (the code breaks the claim): dividing `2^63 * (2^64 + 1)` by `y = 2^63`
(`n = 2`), the step `k = 2` leaves the remainder `y` itself, of two limbs; the
loop stops at `k = 1` because `2 < n + 1`, although the remainder is not smaller
than `y`, and the limb `q[0]`, left at zero, should be `1`. -/
theorem C18_loop_stops_too_early :
    div_step ⟨false, [0, 2147483648, 0, 2147483648]⟩ ⟨false, [0, 2147483648]⟩ 2 2
      = .ok (⟨false, [0, 2147483648]⟩, 1) ∧
    ¬ ((⟨false, [0, 2147483648]⟩ : big_integer).digits_.length ≥ 2 + 1) ∧
    ¬ (limbs_val [0, 2147483648] < limbs_val [0, 2147483648]) ∧
    div_long_loop ⟨false, [0, 2147483648]⟩ 2 3 ⟨false, [0, 2147483648, 0, 2147483648]⟩ [0, 0, 0]
      = .ok (⟨false, [0, 2147483648]⟩, [0, 0, 1]) ∧
    mod_long_loop ⟨false, [0, 2147483648]⟩ 2 3 ⟨false, [0, 2147483648, 0, 2147483648]⟩
      = .ok ⟨false, [0, 2147483648]⟩ ∧
    limbs_val [0, 2147483648, 0, 2147483648] / limbs_val [0, 2147483648] = limbs_val [1, 0, 1] := by
  refine ⟨rfl, by decide, by decide, rfl, rfl, by decide⟩

/-- C19 (the code breaks the claim): for the canonical operands `a = -(2^32 + 1)`
and `b = -2^64` the quotient vector of `div_long` has `k + 1 = 0` limbs, and
`a / b` is returned with no limb at all, which is not canonical. -/
theorem C19_quotient_without_limbs :
    canonical (of_long_long (-4294967297)) ∧ canonical ⟨true, [0, 0]⟩ ∧
    of_string "-18446744073709551616".toList = .ok ⟨true, [0, 0]⟩ ∧
    denote ⟨true, [0, 0]⟩ ≠ 0 ∧
    operator_div_eq (of_long_long (-4294967297)) ⟨true, [0, 0]⟩ = .ok ⟨false, []⟩ ∧
    ¬ canonical ⟨false, []⟩ := by
  refine ⟨by decide, by decide, rfl, by decide, rfl, by decide⟩

/-- C20 fails as stated: `BigInt(2147483648)` is stored as the single limb
`0x80000000`, whose high bit is set, with the sign flag clear. -/
theorem C20_flag_is_not_top_bit :
    of_long_long 2147483648 = ⟨false, [2147483648]⟩ ∧
    canonical (of_long_long 2147483648) ∧
    top_bit (of_long_long 2147483648).digits_ = true ∧
    (of_long_long 2147483648).negative_ = false := by
  refine ⟨by decide, by decide, by decide, by decide⟩

/-! ## Division by zero and the sign flag -/

/-- C13: for every value `a`, `a / 0` and `a % 0` fail with the exception
`Division by zero` and give no result, and the compound forms leave `a` as it was. -/
theorem C13_division_by_zero (a : big_integer) :
    operator_div_eq a ZERO = .error (.invalid_argument "Division by zero") ∧
    operator_mod_eq a ZERO = .error (.invalid_argument "Division by zero") ∧
    operator_div_eq_state a ZERO = (.error (.invalid_argument "Division by zero"), some a) ∧
    operator_mod_eq_state a ZERO = (.error (.invalid_argument "Division by zero"), some a) ∧
    operator_div_eq (of_long_long 5) (of_long_long 0)
      = .error (.invalid_argument "Division by zero") ∧
    operator_mod_eq (of_long_long 5) (of_long_long 0)
      = .error (.invalid_argument "Division by zero") := by
  refine ⟨rfl, rfl, rfl, rfl, rfl, rfl⟩

theorem of_long_long_denote {x : Int} (h1 : -9223372036854775808 ≤ x)
    (h2 : x < 9223372036854775808) : denote (of_long_long x) = x := by
  unfold of_long_long
  simp only [denote_shrink]
  unfold denote
  simp only [limbs_val, List.length_cons, List.length_nil]
  have hB : BASE = 4294967296 := by decide
  rw [hB]
  by_cases hx : x < 0
  · simp only [hx, decide_True, if_true]
    norm_num
    omega
  · simp only [hx, decide_False, Bool.false_eq_true, if_false]
    norm_num
    omega

theorem of_unsigned_long_long_denote {u : Nat} (h : u < 18446744073709551616) :
    denote (of_unsigned_long_long u) = u := by
  unfold of_unsigned_long_long
  simp only [denote_shrink]
  unfold denote
  simp only [limbs_val, Bool.false_eq_true, if_false]
  have hB : BASE = 4294967296 := by decide
  rw [hB]
  norm_num
  omega

theorem of_long_long_canonical (x : Int) : canonical (of_long_long x) := by
  unfold of_long_long
  apply canonical_shrink
  · intro d hd
    have hB : BASE = 4294967296 := by decide
    simp only [List.mem_cons, List.mem_singleton, List.not_mem_nil, or_false] at hd
    rcases hd with rfl | rfl <;> rw [hB] <;> omega
  · simp

theorem of_unsigned_long_long_canonical (u : Nat) : canonical (of_unsigned_long_long u) := by
  unfold of_unsigned_long_long
  apply canonical_shrink
  · intro d hd
    simp only [List.mem_cons, List.mem_singleton, List.not_mem_nil, or_false] at hd
    rcases hd with rfl | rfl <;> exact Nat.mod_lt _ BASE_pos
  · simp

/-! ## Left shift -/

theorem two_pow_split {r : Nat} (hr : r ≤ 32) : 2 ^ r * 2 ^ (32 - r) = BASE := by
  rw [← pow_add, show r + (32 - r) = 32 by omega]
  rfl

/-- One step of the sub-limb left shift: the stored word and the bits carried out. -/
theorem shl_digit {d p q c : Nat} (hpq : p * q = BASE) (hq : 0 < q) (hc : c < p)
    (hd : d < BASE) :
    ((d * p) % BASE + c) % BASE + BASE * (d / q) = d * p + c ∧ d / q < p := by
  have h0 := Nat.div_add_mod d q
  have hlt : d % q < q := Nat.mod_lt _ hq
  have h1 : d * p = BASE * (d / q) + (d % q) * p := by
    rw [← hpq]
    calc d * p = (q * (d / q) + d % q) * p := by rw [h0]
      _ = p * q * (d / q) + d % q * p := by ring
  have h2 : (d % q) * p + p ≤ BASE := by
    rw [← hpq]
    calc (d % q) * p + p = (d % q + 1) * p := by ring
      _ ≤ q * p := Nat.mul_le_mul_right p hlt
      _ = p * q := Nat.mul_comm _ _
  have h3 : (d * p) % BASE = (d % q) * p := by
    rw [h1, Nat.mul_add_mod]
    exact Nat.mod_eq_of_lt (by omega)
  have h4 : ((d * p) % BASE + c) % BASE = (d * p) % BASE + c := by
    apply Nat.mod_eq_of_lt
    rw [h3]; omega
  refine ⟨?_, ?_⟩
  · rw [h4, h3]; omega
  · rw [Nat.div_lt_iff_lt_mul hq, hpq]; exact hd

theorem shl_loop_spec {r : Nat} (_hr0 : 0 < r) (hr : r < 32) (ds : List Nat) (c : Nat)
    (hds : limbs_ok ds) (hc : c < 2 ^ r) :
    limbs_val (shl_loop r ds c).1 + BASE ^ ds.length * (shl_loop r ds c).2
        = limbs_val ds * 2 ^ r + c ∧
    limbs_ok (shl_loop r ds c).1 ∧ (shl_loop r ds c).1.length = ds.length ∧
    (shl_loop r ds c).2 < 2 ^ r := by
  induction ds generalizing c with
  | nil => simp [shl_loop, limbs_val, limbs_ok_nil, hc]
  | cons d ds ih =>
    rw [limbs_ok_cons] at hds
    have hpq := two_pow_split (le_of_lt hr)
    have hq : 0 < 2 ^ (32 - r) := pow_pos (by norm_num) _
    obtain ⟨e1, e2⟩ := shl_digit hpq hq hc hds.1
    obtain ⟨i1, i2, i3, i4⟩ := ih (d / 2 ^ (32 - r)) hds.2 e2
    simp only [shl_loop, BASE_POW, limbs_val, List.length_cons, pow_succ]
    refine ⟨?_, limbs_ok_cons.2 ⟨Nat.mod_lt _ BASE_pos, i2⟩, by rw [i3], i4⟩
    generalize (shl_loop r ds (d / 2 ^ (32 - r))).1 = X at i1 ⊢
    generalize (shl_loop r ds (d / 2 ^ (32 - r))).2 = Y at i1 ⊢
    have : BASE * (limbs_val X + BASE ^ ds.length * Y)
        = BASE * (limbs_val ds * 2 ^ r + d / 2 ^ (32 - r)) := by rw [i1]
    have e3 : (d + BASE * limbs_val ds) * 2 ^ r = d * 2 ^ r + BASE * (limbs_val ds * 2 ^ r) := by ring
    have e4 : BASE ^ ds.length * BASE * Y = BASE * (BASE ^ ds.length * Y) := by ring
    rw [e3, e4]
    rw [Nat.mul_add, Nat.mul_add] at this
    omega

theorem sign_fill_word {r : Nat} (hr : r < 32) : (UINT32_MAX * 2 ^ r) % BASE = BASE - 2 ^ r := by
  have hp : 0 < 2 ^ r := pow_pos (by norm_num) _
  have hlt : 2 ^ r < BASE := by
    have : 2 ^ r < 2 ^ 32 := Nat.pow_lt_pow_right (by norm_num) hr
    exact this
  have h1 : UINT32_MAX * 2 ^ r = BASE * (2 ^ r - 1) + (BASE - 2 ^ r) := by
    have : UINT32_MAX = BASE - 1 := by decide
    rw [this]
    have hB := BASE_pos
    obtain ⟨p, hp2⟩ : ∃ p, 2 ^ r = p + 1 := ⟨2 ^ r - 1, by omega⟩
    obtain ⟨b, hb⟩ : ∃ b, BASE = b + 1 := ⟨BASE - 1, by omega⟩
    rw [hp2] at hlt ⊢
    rw [hb] at hlt ⊢
    simp only [Nat.add_sub_cancel]
    have : b + 1 - (p + 1) = b - p := by omega
    rw [this]
    obtain ⟨k, hk⟩ : ∃ k, b = p + k := ⟨b - p, by omega⟩
    rw [hk]
    simp only [Nat.add_sub_cancel_left]
    ring
  rw [h1, Nat.mul_add_mod]
  exact Nat.mod_eq_of_lt (by omega)

theorem limbs_val_zeros_append (z : Nat) (v : List Nat) :
    limbs_val (List.replicate z 0 ++ v) = BASE ^ z * limbs_val v := by
  rw [limbs_val_append, limbs_val_replicate_zero, List.length_replicate, Nat.zero_add]

theorem base_pow_two_pow (z r : Nat) : BASE ^ z * 2 ^ r = 2 ^ (32 * z + r) := by
  have : BASE = 2 ^ 32 := rfl
  rw [this, ← pow_mul, ← pow_add]

theorem denote_zeros_append (neg : Bool) (z : Nat) (v : List Nat) :
    denote ⟨neg, List.replicate z 0 ++ v⟩ = ((BASE ^ z : Nat) : Int) * denote ⟨neg, v⟩ := by
  unfold denote
  simp only [limbs_val_zeros_append, List.length_append, List.length_replicate, pow_add]
  cases neg
  · simp
  · simp only [if_true]; push_cast; ring

theorem two_pow_cast (z r : Nat) :
    (2 : Int) ^ (32 * z + r) = ((BASE ^ z : Nat) : Int) * ((2 ^ r : Nat) : Int) := by
  rw [← Nat.cast_mul, base_pow_two_pow]; push_cast; rfl

theorem shl_nonneg_denote {a : big_integer} (ha : limbs_ok a.digits_) (n : Nat) :
    denote (shl_nonneg a n) = denote a * 2 ^ n := by
  have hn : n = 32 * (n / 32) + n % 32 := (Nat.div_add_mod n 32).symm
  have hrlt : n % 32 < 32 := Nat.mod_lt _ (by norm_num)
  unfold shl_nonneg
  simp only [BASE_POW]
  generalize n / 32 = z at hn
  generalize n % 32 = r at hn hrlt
  subst hn
  rw [two_pow_cast]
  by_cases hr : r = 0
  · subst hr
    simp only [ne_eq, not_true_eq_false, if_false, denote_shrink]
    rw [denote_zeros_append]
    simp only [pow_zero, Nat.cast_one, mul_one]
    ring
  · simp only [ne_eq, hr, not_false_eq_true, if_true, denote_shrink]
    have hr0 : 0 < r := Nat.pos_of_ne_zero hr
    obtain ⟨s1, s2, s3, s4⟩ := shl_loop_spec hr0 hrlt a.digits_ 0 ha (pow_pos (by norm_num) _)
    have hfill := sign_fill_word hrlt
    have hplt : 2 ^ r < BASE := by
      have : 2 ^ r < 2 ^ 32 := Nat.pow_lt_pow_right (by norm_num) hrlt
      exact this
    rw [hfill, List.append_assoc, denote_zeros_append, denote_concat, s3]
    generalize (shl_loop r a.digits_ 0).1 = X at s1 s2 s3 ⊢
    generalize (shl_loop r a.digits_ 0).2 = Y at s1 s4 ⊢
    rw [Nat.add_zero] at s1
    have s1' : ((limbs_val X : Nat) : Int) + ((BASE ^ a.digits_.length : Nat) : Int) * (Y : Int)
        = ((limbs_val a.digits_ : Nat) : Int) * ((2 ^ r : Nat) : Int) := by
      have := congrArg (fun n : Nat => (n : Int)) s1
      simp only [Nat.cast_add, Nat.cast_mul] at this
      exact this
    unfold denote
    cases hneg : a.negative_
    · simp only [b2n, Bool.false_eq_true, if_false, Nat.zero_mul, Nat.zero_add, sub_zero]
      rw [Nat.mod_eq_of_lt (by omega)]
      linear_combination ((BASE ^ z : Nat) : Int) * s1'
    · simp only [b2n, if_true, Nat.one_mul]
      rw [Nat.mod_eq_of_lt (by omega)]
      have hY : ((BASE - 2 ^ r + Y : Nat) : Int)
          = (BASE : Int) - ((2 ^ r : Nat) : Int) + (Y : Int) := by
        rw [Nat.cast_add, Nat.cast_sub (le_of_lt hplt)]
      rw [hY]
      linear_combination ((BASE ^ z : Nat) : Int) * s1'

theorem shl_nonneg_canonical {a : big_integer} (ha : canonical a) (n : Nat) :
    canonical (shl_nonneg a n) := by
  have hrlt : n % 32 < 32 := Nat.mod_lt _ (by norm_num)
  unfold shl_nonneg
  simp only [BASE_POW]
  split
  · rename_i hr
    have hr0 : 0 < n % 32 := Nat.pos_of_ne_zero hr
    obtain ⟨_, s2, _, _⟩ := shl_loop_spec hr0 hrlt a.digits_ 0 ha.1 (pow_pos (by norm_num) _)
    apply canonical_shrink
    · exact limbs_ok_append.2 ⟨limbs_ok_append.2 ⟨limbs_ok_replicate BASE_pos, s2⟩,
        limbs_ok_cons.2 ⟨Nat.mod_lt _ BASE_pos, limbs_ok_nil⟩⟩
    · simp
  · apply canonical_shrink
    · exact limbs_ok_append.2 ⟨limbs_ok_replicate BASE_pos, ha.1⟩
    · have := ha.2.1
      simp [this]

/-- C9: for canonical `a` and every shift amount `n >= 0`, `a << n` succeeds,
is canonical and denotes `a * 2^n`. -/
theorem C9_shift_left (a : big_integer) (n : Nat) (ha : canonical a) :
    operator_shl_eq a (n : Int) = .ok (shl_nonneg a n) ∧
    canonical (shl_nonneg a n) ∧
    denote (shl_nonneg a n) = denote a * 2 ^ n := by
  refine ⟨?_, shl_nonneg_canonical ha n, shl_nonneg_denote ha.1 n⟩
  unfold operator_shl_eq
  rw [if_neg (by omega)]
  simp

/-- C9 at the specification's example `BigInt(1) << 64 == BigInt("18446744073709551616")`. -/
theorem C9_shift_left_witness :
    of_string "18446744073709551616".toList = .ok (shl_nonneg (of_long_long 1) 64) ∧
    canonical (of_long_long 1) ∧
    (operator_shl_eq (of_long_long 1) ((64 : Nat) : Int) = .ok (shl_nonneg (of_long_long 1) 64) ∧
      canonical (shl_nonneg (of_long_long 1) 64) ∧
      denote (shl_nonneg (of_long_long 1) 64) = denote (of_long_long 1) * 2 ^ 64) :=
  ⟨rfl, by decide, C9_shift_left (of_long_long 1) 64 (by decide)⟩

/-! ## Bitwise operators -/

theorem testBit_limbs_val {ds : List Nat} (h : limbs_ok ds) (i : Nat) :
    Nat.testBit (limbs_val ds) i = Nat.testBit (ds.getD (i / 32) 0) (i % 32) := by
  induction ds generalizing i with
  | nil => simp [limbs_val]
  | cons d ds ih =>
    rw [limbs_ok_cons] at h
    have hd : d < 2 ^ 32 := h.1
    have e : limbs_val (d :: ds) = 2 ^ 32 * limbs_val ds + d := by
      simp only [limbs_val]; rw [Nat.add_comm]; rfl
    rw [e, Nat.testBit_mul_pow_two_add _ hd]
    by_cases hi : i < 32
    · rw [if_pos hi, Nat.div_eq_of_lt hi, Nat.mod_eq_of_lt hi, List.getD_cons_zero]
    · rw [if_neg hi, ih h.2]
      have h1 : i / 32 = (i - 32) / 32 + 1 := by omega
      have h2 : i % 32 = (i - 32) % 32 := by omega
      rw [h1, h2, List.getD_cons_succ]

theorem getD_sign_ext (a : big_integer) (k j : Nat) (hj : j < a.digits_.length + k) :
    (a.digits_ ++ List.replicate k (b2n a.negative_ * UINT32_MAX)).getD j 0 = get_digit a j := by
  unfold get_digit
  by_cases h : j < a.digits_.length
  · rw [if_pos h, List.getD_append _ _ _ _ h]
  · rw [if_neg h, List.getD_append_right _ _ _ _ (by omega)]
    rw [List.getD_eq_getElem _ _ (by simp; omega)]
    simp

/-- Bit `i` of the integer a value denotes is bit `i % 32` of the limb `get_digit (i / 32)`
of its sign-extended pattern. -/
theorem testBit_denote {a : big_integer} (h : limbs_ok a.digits_) (i : Nat) :
    Int.testBit (denote a) i = Nat.testBit (get_digit a (i / 32)) (i % 32) := by
  have hk : i % 32 < 32 := Nat.mod_lt _ (by norm_num)
  cases hneg : a.negative_
  · have e : denote a = ((limbs_val a.digits_ : Nat) : Int) := by
      unfold denote; rw [hneg]; simp
    rw [e]
    show Nat.testBit (limbs_val a.digits_) i = _
    rw [testBit_limbs_val h]
    unfold get_digit
    split
    · rfl
    · rename_i hlen
      rw [List.getD_eq_default _ _ (by omega), hneg]
      rfl
  · have hc := limbs_val_map_compl h
    have e : denote a = Int.negSucc (limbs_val (a.digits_.map (fun x => UINT32_MAX - x))) := by
      unfold denote; rw [hneg, Int.negSucc_eq]
      simp only [if_true]
      have := congrArg (fun n : Nat => (n : Int)) hc
      simp only [Nat.cast_add, Nat.cast_one] at this
      omega
    rw [e]
    show (!Nat.testBit (limbs_val (a.digits_.map (fun x => UINT32_MAX - x))) i) = _
    have hok : limbs_ok (a.digits_.map (fun x => UINT32_MAX - x)) := by
      intro d hd
      rw [List.mem_map] at hd
      obtain ⟨x, _, rfl⟩ := hd
      have : UINT32_MAX < BASE := by decide
      omega
    rw [testBit_limbs_val hok]
    unfold get_digit
    split
    · rename_i hlen
      have e2 : (a.digits_.map (fun x => UINT32_MAX - x)).getD (i / 32) 0
          = 2 ^ 32 - (a.digits_.getD (i / 32) 0 + 1) := by
        rw [List.getD_eq_getElem _ _ (by simpa using hlen), List.getD_eq_getElem _ _ hlen]
        simp only [List.getElem_map]
        have : UINT32_MAX = 2 ^ 32 - 1 := by decide
        rw [this]; omega
      rw [e2, Nat.testBit_two_pow_sub_succ (getD_lt_of_limbs_ok h _)]
      simp [hk]
    · rename_i hlen
      rw [List.getD_eq_default _ _ (by simp; omega), hneg]
      have : b2n true * UINT32_MAX = 2 ^ 32 - 1 := by decide
      rw [this, Nat.testBit_two_pow_sub_one]
      simp [hk]

theorem int_eq_of_testBit {m n : Int} (h : ∀ i, Int.testBit m i = Int.testBit n i) : m = n := by
  cases m with
  | ofNat x =>
    cases n with
    | ofNat y =>
      have : x = y := Nat.eq_of_testBit_eq h
      rw [this]
    | negSucc y =>
      exfalso
      have := h (max x y)
      have h1 : Nat.testBit x (max x y) = false :=
        Nat.testBit_lt_two_pow (lt_of_le_of_lt (le_max_left x y) (Nat.lt_two_pow _))
      have h2 : Nat.testBit y (max x y) = false :=
        Nat.testBit_lt_two_pow (lt_of_le_of_lt (le_max_right x y) (Nat.lt_two_pow _))
      simp only [Int.testBit] at this
      rw [h1, h2] at this
      simp at this
  | negSucc x =>
    cases n with
    | ofNat y =>
      exfalso
      have := h (max x y)
      have h1 : Nat.testBit x (max x y) = false :=
        Nat.testBit_lt_two_pow (lt_of_le_of_lt (le_max_left x y) (Nat.lt_two_pow _))
      have h2 : Nat.testBit y (max x y) = false :=
        Nat.testBit_lt_two_pow (lt_of_le_of_lt (le_max_right x y) (Nat.lt_two_pow _))
      simp only [Int.testBit] at this
      rw [h1, h2] at this
      simp at this
    | negSucc y =>
      have : x = y := by
        apply Nat.eq_of_testBit_eq
        intro i
        have := h i
        simp only [Int.testBit] at this
        simpa using this
      rw [this]

theorem bitwise_loop_length (op : Nat → Nat → Nat) (rhs : big_integer) (ds : List Nat) (i : Nat) :
    (bitwise_loop op rhs ds i).length = ds.length := by
  induction ds generalizing i with
  | nil => rfl
  | cons d ds ih => simp [bitwise_loop, ih]

theorem bitwise_loop_getD (op : Nat → Nat → Nat) (rhs : big_integer) (ds : List Nat) (i j : Nat)
    (hj : j < ds.length) :
    (bitwise_loop op rhs ds i).getD j 0 = op (ds.getD j 0) (get_digit rhs (i + j)) := by
  induction ds generalizing i j with
  | nil => simp at hj
  | cons d ds ih =>
    cases j with
    | zero => simp [bitwise_loop]
    | succ j =>
      simp only [bitwise_loop, List.getD_cons_succ]
      rw [ih (i + 1) j (by simpa using hj)]
      congr 2
      omega

theorem limbs_ok_bitwise_loop {op : Nat → Nat → Nat} (hlt : ∀ x y, x < BASE → y < BASE → op x y < BASE)
    {rhs : big_integer} (hr : limbs_ok rhs.digits_) {ds : List Nat} (hds : limbs_ok ds) (i : Nat) :
    limbs_ok (bitwise_loop op rhs ds i) := by
  induction ds generalizing i with
  | nil => exact limbs_ok_nil
  | cons d ds ih =>
    rw [limbs_ok_cons] at hds
    simp only [bitwise_loop]
    refine limbs_ok_cons.2 ⟨hlt _ _ hds.1 ?_, ih hds.2 _⟩
    have := get_digit_le hr i
    have : UINT32_MAX < BASE := by decide
    omega

theorem max_split (la lb : Nat) : ∃ ka kb, max la lb = la + ka ∧ max la lb = lb + kb :=
  ⟨max la lb - la, max la lb - lb, by omega, by omega⟩

/-- Limb `j` of the sign-extended pattern of `bitwise a b op` is `op` of the limbs of `a` and `b`. -/
theorem bitwise_get_digit {op : Nat → Nat → Nat} (a b : big_integer)
    (hop : ∀ p q : Bool, op (b2n p * UINT32_MAX) (b2n q * UINT32_MAX)
      = b2n (decide (op (b2n p) (b2n q) ≠ 0)) * UINT32_MAX) (j : Nat) :
    get_digit ⟨decide (op (b2n a.negative_) (b2n b.negative_) ≠ 0),
      bitwise_loop op b (resize a.digits_ (max a.digits_.length b.digits_.length)
        (get_digit a a.digits_.length)) 0⟩ j
      = op (get_digit a j) (get_digit b j) := by
  obtain ⟨ka, kb, hNa, hNb⟩ := max_split a.digits_.length b.digits_.length
  rw [get_digit_length]
  generalize max a.digits_.length b.digits_.length = N at hNa hNb
  have hd0 : resize a.digits_ N (b2n a.negative_ * UINT32_MAX)
      = a.digits_ ++ List.replicate ka (b2n a.negative_ * UINT32_MAX) := by
    rw [hNa, resize_eq_append]
  have hlen0 : (resize a.digits_ N (b2n a.negative_ * UINT32_MAX)).length = N := resize_length _ _ _
  unfold get_digit
  simp only [bitwise_loop_length, hlen0]
  by_cases hj : j < N
  · rw [if_pos hj, bitwise_loop_getD _ _ _ _ _ (by rw [hlen0]; exact hj), hd0,
      getD_sign_ext a ka j (by omega), Nat.zero_add]
    rfl
  · rw [if_neg hj, if_neg (by omega), if_neg (by omega)]
    exact (hop _ _).symm

theorem bitwise_testBit {op : Nat → Nat → Nat} {f : Bool → Bool → Bool} {a b : big_integer}
    (ha : limbs_ok a.digits_) (hb : limbs_ok b.digits_)
    (hop : ∀ p q : Bool, op (b2n p * UINT32_MAX) (b2n q * UINT32_MAX)
      = b2n (decide (op (b2n p) (b2n q) ≠ 0)) * UINT32_MAX)
    (hbit : ∀ x y k, Nat.testBit (op x y) k = f (Nat.testBit x k) (Nat.testBit y k))
    (hlt : ∀ x y, x < BASE → y < BASE → op x y < BASE) (i : Nat) :
    Int.testBit (denote (bitwise a b op)) i
      = f (Int.testBit (denote a) i) (Int.testBit (denote b) i) := by
  unfold bitwise
  simp only [denote_shrink]
  have hok : limbs_ok (bitwise_loop op b (resize a.digits_ (max a.digits_.length b.digits_.length)
      (get_digit a a.digits_.length)) 0) := by
    apply limbs_ok_bitwise_loop hlt hb
    obtain ⟨ka, kb, hNa, hNb⟩ := max_split a.digits_.length b.digits_.length
    rw [get_digit_length, hNa, resize_eq_append]
    exact limbs_ok_sign_ext ha ka
  rw [testBit_denote (a := ⟨_, _⟩) hok, bitwise_get_digit a b hop, hbit,
    testBit_denote ha, testBit_denote hb]

theorem bitwise_canonical {op : Nat → Nat → Nat} {a b : big_integer}
    (ha : canonical a) (hb : limbs_ok b.digits_)
    (hlt : ∀ x y, x < BASE → y < BASE → op x y < BASE) : canonical (bitwise a b op) := by
  unfold bitwise
  obtain ⟨ka, kb, hNa, hNb⟩ := max_split a.digits_.length b.digits_.length
  apply canonical_shrink
  · apply limbs_ok_bitwise_loop hlt hb
    rw [get_digit_length, hNa, resize_eq_append]
    exact limbs_ok_sign_ext ha.1 ka
  · intro h
    have := congrArg List.length h
    rw [bitwise_loop_length, resize_length] at this
    have h2 : 0 < a.digits_.length := List.length_pos.2 ha.2.1
    have h3 := le_max_left a.digits_.length b.digits_.length
    rw [this, List.length_nil] at h3
    omega

theorem and_sign (p q : Bool) : (b2n p * UINT32_MAX) &&& (b2n q * UINT32_MAX)
    = b2n (decide ((b2n p &&& b2n q) ≠ 0)) * UINT32_MAX := by
  cases p <;> cases q <;> decide

theorem or_sign (p q : Bool) : (b2n p * UINT32_MAX) ||| (b2n q * UINT32_MAX)
    = b2n (decide ((b2n p ||| b2n q) ≠ 0)) * UINT32_MAX := by
  cases p <;> cases q <;> decide

theorem xor_sign (p q : Bool) : (b2n p * UINT32_MAX) ^^^ (b2n q * UINT32_MAX)
    = b2n (decide ((b2n p ^^^ b2n q) ≠ 0)) * UINT32_MAX := by
  cases p <;> cases q <;> decide

theorem and_lt_base (x y : Nat) (_ : x < BASE) (hy : y < BASE) : x &&& y < BASE :=
  Nat.and_lt_two_pow x hy

theorem or_lt_base (x y : Nat) (hx : x < BASE) (hy : y < BASE) : x ||| y < BASE :=
  Nat.or_lt_two_pow hx hy

theorem xor_lt_base (x y : Nat) (hx : x < BASE) (hy : y < BASE) : x ^^^ y < BASE :=
  Nat.xor_lt_two_pow hx hy

theorem operator_and_eq_denote {a b : big_integer} (ha : limbs_ok a.digits_)
    (hb : limbs_ok b.digits_) :
    denote (operator_and_eq a b) = Int.land (denote a) (denote b) := by
  apply int_eq_of_testBit
  intro i
  rw [Int.testBit_land]
  exact bitwise_testBit ha hb and_sign Nat.testBit_and and_lt_base i

theorem operator_or_eq_denote {a b : big_integer} (ha : limbs_ok a.digits_)
    (hb : limbs_ok b.digits_) :
    denote (operator_or_eq a b) = Int.lor (denote a) (denote b) := by
  apply int_eq_of_testBit
  intro i
  rw [Int.testBit_lor]
  exact bitwise_testBit ha hb or_sign Nat.testBit_or or_lt_base i

theorem operator_xor_eq_denote {a b : big_integer} (ha : limbs_ok a.digits_)
    (hb : limbs_ok b.digits_) :
    denote (operator_xor_eq a b) = Int.xor (denote a) (denote b) := by
  apply int_eq_of_testBit
  intro i
  rw [Int.testBit_lxor]
  exact bitwise_testBit (f := xor) ha hb xor_sign (by intro x y k; simp) xor_lt_base i

theorem int_land_self (x : Int) : Int.land x x = x := by
  apply int_eq_of_testBit; intro i; rw [Int.testBit_land]; simp

theorem int_lor_self (x : Int) : Int.lor x x = x := by
  apply int_eq_of_testBit; intro i; rw [Int.testBit_lor]; simp

theorem int_xor_self (x : Int) : Int.xor x x = 0 := by
  apply int_eq_of_testBit; intro i; rw [Int.testBit_lxor]
  simp [Int.testBit]

/-- C10: for canonical `a` and `b`, each of `a & b`, `a | b`, `a ^ b` is
canonical, denotes the bitwise AND, OR, XOR of the two's-complement integers
`a` and `b` denote, and carries the operation of the two sign flags as its
sign flag; hence `a ^ a == 0`, `a & a == a` and `a | a == a`. -/
theorem C10_bitwise (a b : big_integer) (ha : canonical a) (hb : canonical b) :
    (canonical (operator_and_eq a b) ∧
      denote (operator_and_eq a b) = Int.land (denote a) (denote b) ∧
      (operator_and_eq a b).negative_ = (a.negative_ && b.negative_)) ∧
    (canonical (operator_or_eq a b) ∧
      denote (operator_or_eq a b) = Int.lor (denote a) (denote b) ∧
      (operator_or_eq a b).negative_ = (a.negative_ || b.negative_)) ∧
    (canonical (operator_xor_eq a b) ∧
      denote (operator_xor_eq a b) = Int.xor (denote a) (denote b) ∧
      (operator_xor_eq a b).negative_ = xor a.negative_ b.negative_) ∧
    operator_xor_eq a a = ZERO ∧ operator_and_eq a a = a ∧ operator_or_eq a a = a := by
  refine ⟨⟨bitwise_canonical ha hb.1 and_lt_base, operator_and_eq_denote ha.1 hb.1, ?_⟩,
    ⟨bitwise_canonical ha hb.1 or_lt_base, operator_or_eq_denote ha.1 hb.1, ?_⟩,
    ⟨bitwise_canonical ha hb.1 xor_lt_base, operator_xor_eq_denote ha.1 hb.1, ?_⟩, ?_, ?_, ?_⟩
  · show decide ((b2n a.negative_ &&& b2n b.negative_) ≠ 0) = _
    cases a.negative_ <;> cases b.negative_ <;> decide
  · show decide ((b2n a.negative_ ||| b2n b.negative_) ≠ 0) = _
    cases a.negative_ <;> cases b.negative_ <;> decide
  · show decide ((b2n a.negative_ ^^^ b2n b.negative_) ≠ 0) = _
    cases a.negative_ <;> cases b.negative_ <;> decide
  · apply eq_ZERO_of_denote (bitwise_canonical ha ha.1 xor_lt_base)
    exact (operator_xor_eq_denote ha.1 ha.1).trans (int_xor_self _)
  · apply canonical_unique (bitwise_canonical ha ha.1 and_lt_base) ha
    exact (operator_and_eq_denote ha.1 ha.1).trans (int_land_self _)
  · apply canonical_unique (bitwise_canonical ha ha.1 or_lt_base) ha
    exact (operator_or_eq_denote ha.1 ha.1).trans (int_lor_self _)

/-- C10 at `a = -7` and `b = 2^32 + 3`. -/
theorem C10_bitwise_witness :
    canonical ⟨true, [4294967289]⟩ ∧ canonical ⟨false, [3, 1]⟩ ∧
    operator_and_eq ⟨true, [4294967289]⟩ ⟨false, [3, 1]⟩ = ⟨false, [1, 1]⟩ ∧
    ((canonical (operator_and_eq ⟨true, [4294967289]⟩ ⟨false, [3, 1]⟩) ∧
      denote (operator_and_eq ⟨true, [4294967289]⟩ ⟨false, [3, 1]⟩)
        = Int.land (denote ⟨true, [4294967289]⟩) (denote ⟨false, [3, 1]⟩) ∧
      (operator_and_eq ⟨true, [4294967289]⟩ ⟨false, [3, 1]⟩).negative_ = (true && false)) ∧
    (canonical (operator_or_eq ⟨true, [4294967289]⟩ ⟨false, [3, 1]⟩) ∧
      denote (operator_or_eq ⟨true, [4294967289]⟩ ⟨false, [3, 1]⟩)
        = Int.lor (denote ⟨true, [4294967289]⟩) (denote ⟨false, [3, 1]⟩) ∧
      (operator_or_eq ⟨true, [4294967289]⟩ ⟨false, [3, 1]⟩).negative_ = (true || false)) ∧
    (canonical (operator_xor_eq ⟨true, [4294967289]⟩ ⟨false, [3, 1]⟩) ∧
      denote (operator_xor_eq ⟨true, [4294967289]⟩ ⟨false, [3, 1]⟩)
        = Int.xor (denote ⟨true, [4294967289]⟩) (denote ⟨false, [3, 1]⟩) ∧
      (operator_xor_eq ⟨true, [4294967289]⟩ ⟨false, [3, 1]⟩).negative_ = xor true false) ∧
    operator_xor_eq ⟨true, [4294967289]⟩ ⟨true, [4294967289]⟩ = ZERO ∧
    operator_and_eq ⟨true, [4294967289]⟩ ⟨true, [4294967289]⟩ = ⟨true, [4294967289]⟩ ∧
    operator_or_eq ⟨true, [4294967289]⟩ ⟨true, [4294967289]⟩ = ⟨true, [4294967289]⟩) :=
  ⟨by decide, by decide, by decide,
    C10_bitwise ⟨true, [4294967289]⟩ ⟨false, [3, 1]⟩ (by decide) (by decide)⟩

/-! ## Multiplication and division by one limb -/

theorem U64_eq : U64 = BASE * BASE := by decide

theorem mul_short_loop_spec {b : Nat} (hb : b < BASE) (ds : List Nat) (c : Nat)
    (hds : limbs_ok ds) (hc : c < BASE) :
    ∃ co, co < BASE ∧ limbs_val (mul_short_loop b ds c) + BASE ^ ds.length * co
        = limbs_val ds * b + c ∧
      limbs_ok (mul_short_loop b ds c) ∧ (mul_short_loop b ds c).length = ds.length := by
  induction ds generalizing c with
  | nil => exact ⟨c, hc, by simp [mul_short_loop, limbs_val], limbs_ok_nil, rfl⟩
  | cons d ds ih =>
    rw [limbs_ok_cons] at hds
    have hB := BASE_pos
    have hcur : c + d * b < U64 := by
      rw [U64_eq]
      have h1 : d * b ≤ (BASE - 1) * (BASE - 1) := Nat.mul_le_mul (by omega) (by omega)
      have h2 : (BASE - 1) * (BASE - 1) + BASE ≤ BASE * BASE := by decide
      omega
    have hdiv : (c + d * b) / BASE < BASE := by
      rw [Nat.div_lt_iff_lt_mul hB, ← U64_eq]; exact hcur
    obtain ⟨co, hco, hv, hok, hlen⟩ := ih ((c + d * b) / BASE) hds.2 hdiv
    refine ⟨co, hco, ?_, ?_, ?_⟩
    · simp only [mul_short_loop, Nat.mod_eq_of_lt hcur, limbs_val, List.length_cons, pow_succ]
      have hdm := Nat.div_add_mod (c + d * b) BASE
      have e1 : BASE ^ ds.length * BASE * co = BASE * (BASE ^ ds.length * co) := by ring
      have e2 : (d + BASE * limbs_val ds) * b = d * b + BASE * (limbs_val ds * b) := by ring
      have e3 : BASE * (limbs_val (mul_short_loop b ds ((c + d * b) / BASE)) + BASE ^ ds.length * co)
          = BASE * (limbs_val ds * b + (c + d * b) / BASE) := by rw [hv]
      rw [Nat.mul_add, Nat.mul_add] at e3
      rw [e1, e2]
      omega
    · simp only [mul_short_loop, Nat.mod_eq_of_lt hcur]
      exact limbs_ok_cons.2 ⟨Nat.mod_lt _ hB, hok⟩
    · simp only [mul_short_loop, Nat.mod_eq_of_lt hcur, List.length_cons, hlen]

theorem mul_short_val {a : big_integer} {b : Nat} (ha : limbs_ok a.digits_) (hb : b < BASE) :
    limbs_val (mul_short_loop b (resize a.digits_ (a.digits_.length + 1) 0) 0)
        = limbs_val a.digits_ * b ∧
    limbs_ok (mul_short_loop b (resize a.digits_ (a.digits_.length + 1) 0) 0) ∧
    (mul_short_loop b (resize a.digits_ (a.digits_.length + 1) 0) 0) ≠ [] := by
  rw [resize_eq_append]
  have hok : limbs_ok (a.digits_ ++ List.replicate 1 0) :=
    limbs_ok_append.2 ⟨ha, limbs_ok_replicate BASE_pos⟩
  obtain ⟨co, hco, hv, hok2, hlen⟩ := mul_short_loop_spec hb _ 0 hok BASE_pos
  have hlv : limbs_val (a.digits_ ++ List.replicate 1 0) = limbs_val a.digits_ := by
    rw [limbs_val_append, limbs_val_replicate_zero]; simp
  rw [hlv] at hv
  have hlen2 : (a.digits_ ++ List.replicate 1 0).length = a.digits_.length + 1 := by simp
  rw [hlen2] at hv hlen
  have hlt := limbs_val_lt ha
  have hco0 : co = 0 := by
    by_contra hne
    have h1 : BASE ^ (a.digits_.length + 1) * 1 ≤ BASE ^ (a.digits_.length + 1) * co :=
      Nat.mul_le_mul_left _ (by omega)
    have h2 : limbs_val a.digits_ * b < BASE ^ a.digits_.length * BASE :=
      Nat.mul_lt_mul'' hlt hb
    rw [pow_succ] at h1 hv
    omega
  rw [hco0] at hv
  refine ⟨by omega, hok2, ?_⟩
  intro h
  rw [h] at hlen
  simp at hlen

theorem mul_short_denote {a : big_integer} {b : Nat} (ha : limbs_ok a.digits_)
    (hn : a.negative_ = false) (hb : b < BASE) :
    denote (mul_short a b) = denote a * (b : Int) := by
  obtain ⟨hv, _, _⟩ := mul_short_val ha hb
  unfold mul_short
  simp only [denote_shrink]
  unfold denote
  simp only [hn, Bool.false_eq_true, if_false, sub_zero, hv]
  push_cast; ring

theorem mul_short_canonical {a : big_integer} {b : Nat} (ha : limbs_ok a.digits_)
    (hb : b < BASE) : canonical (mul_short a b) := by
  obtain ⟨_, hok, hne⟩ := mul_short_val ha hb
  unfold mul_short
  exact canonical_shrink _ hok hne

theorem mul_short_negative (a : big_integer) (b : Nat) :
    (mul_short a b).negative_ = a.negative_ := rfl

theorem div_short_loop_spec {b : Nat} (hb : 0 < b) (hbB : b ≤ BASE) (ds : List Nat) (c : Nat)
    (hds : limbs_ok ds) (hc : c < b) :
    limbs_val (div_short_loop b ds c).1.reverse * b + (div_short_loop b ds c).2
        = c * BASE ^ ds.length + limbs_val ds.reverse ∧
    (div_short_loop b ds c).2 < b ∧ limbs_ok (div_short_loop b ds c).1 ∧
    (div_short_loop b ds c).1.length = ds.length := by
  induction ds generalizing c with
  | nil => simp [div_short_loop, limbs_val, limbs_ok_nil, hc]
  | cons d ds ih =>
    rw [limbs_ok_cons] at hds
    have hB := BASE_pos
    have hcur : d + c * BASE < b * BASE := by
      have : (c + 1) * BASE ≤ b * BASE := Nat.mul_le_mul_right _ hc
      rw [Nat.add_mul] at this
      omega
    have hcur64 : d + c * BASE < U64 := by
      rw [U64_eq]
      have : b * BASE ≤ BASE * BASE := Nat.mul_le_mul_right _ hbB
      omega
    have hq : (d + c * BASE) / b < BASE := by
      rw [Nat.div_lt_iff_lt_mul hb, Nat.mul_comm BASE b]; exact hcur
    obtain ⟨i1, i2, i3, i4⟩ := ih ((d + c * BASE) % b) hds.2 (Nat.mod_lt _ hb)
    simp only [div_short_loop, Nat.mod_eq_of_lt hcur64, Nat.mod_eq_of_lt hq, List.reverse_cons,
      limbs_val_append, List.length_reverse, limbs_val, Nat.mul_zero, Nat.add_zero,
      List.length_cons, i4]
    refine ⟨?_, i2, limbs_ok_cons.2 ⟨hq, i3⟩, trivial⟩
    generalize (div_short_loop b ds ((d + c * BASE) % b)).1 = X at i1 ⊢
    generalize (div_short_loop b ds ((d + c * BASE) % b)).2 = Y at i1 ⊢
    have hdm := Nat.div_add_mod (d + c * BASE) b
    generalize (d + c * BASE) / b = Q at hdm i1 ⊢
    generalize (d + c * BASE) % b = R at hdm i1 ⊢
    rw [pow_succ]
    have : (limbs_val X.reverse + BASE ^ ds.length * Q) * b + Y
        = (limbs_val X.reverse * b + Y) + BASE ^ ds.length * (b * Q) := by ring
    rw [this, i1]
    have h2 : b * Q = d + c * BASE - R := by omega
    have h3 : R ≤ d + c * BASE := by omega
    have h4 : BASE ^ ds.length * (b * Q) + R * BASE ^ ds.length
        = BASE ^ ds.length * (d + c * BASE) := by
      rw [h2, Nat.mul_comm R, ← Nat.mul_add, Nat.sub_add_cancel h3]
    have h5 : BASE ^ ds.length * (d + c * BASE)
        = c * (BASE ^ ds.length * BASE) + BASE ^ ds.length * d := by ring
    omega

theorem div_short_spec {a : big_integer} {b : Nat} (ha : limbs_ok a.digits_)
    (hne : a.digits_ ≠ []) (hn : a.negative_ = false) (hb0 : 0 < b) (hbB : b < BASE) :
    ∃ t, div_short a b = .ok (t, limbs_val a.digits_ % b) ∧ canonical t ∧
      t.negative_ = false ∧ denote t = ((limbs_val a.digits_ / b : Nat) : Int) := by
  obtain ⟨s1, s2, s3, s4⟩ := div_short_loop_spec hb0 (le_of_lt hbB) a.digits_.reverse 0
    (limbs_ok_reverse.2 ha) hb0
  simp only [Nat.zero_mul, Nat.zero_add, List.reverse_reverse, List.length_reverse] at s1 s4
  have hq : limbs_val (div_short_loop b a.digits_.reverse 0).1.reverse = limbs_val a.digits_ / b := by
    have : limbs_val a.digits_ = b * limbs_val (div_short_loop b a.digits_.reverse 0).1.reverse
        + (div_short_loop b a.digits_.reverse 0).2 := by rw [← s1]; ring
    rw [this, Nat.mul_add_div hb0, Nat.div_eq_of_lt s2, Nat.add_zero]
  have hr : (div_short_loop b a.digits_.reverse 0).2 = limbs_val a.digits_ % b := by
    have : limbs_val a.digits_ = (div_short_loop b a.digits_.reverse 0).2
        + b * limbs_val (div_short_loop b a.digits_.reverse 0).1.reverse := by rw [← s1]; ring
    rw [this, Nat.add_mul_mod_self_left, Nat.mod_eq_of_lt s2]
  refine ⟨⟨a.negative_, shrink (div_short_loop b a.digits_.reverse 0).1.reverse a.negative_⟩,
    ?_, ?_, hn, ?_⟩
  · unfold div_short
    rw [if_neg (by omega)]
    have : limbs_val a.digits_ % b % BASE = limbs_val a.digits_ % b :=
      Nat.mod_eq_of_lt (lt_trans (Nat.mod_lt _ hb0) hbB)
    simp only [hr, this]
  · apply canonical_shrink _ (limbs_ok_reverse.2 s3)
    intro h
    have := congrArg List.length h
    rw [List.length_reverse, s4] at this
    exact hne (List.length_eq_zero.1 this)
  · rw [denote_shrink]
    unfold denote
    simp only [hn, Bool.false_eq_true, if_false, sub_zero, hq]

theorem denote_nonneg_val {a : big_integer} (hn : a.negative_ = false) :
    denote a = ((limbs_val a.digits_ : Nat) : Int) := by
  unfold denote; simp [hn]

theorem is_digit_char_iff (c : Char) : is_digit_char c ↔ 48 ≤ c.toNat ∧ c.toNat ≤ 57 := by
  unfold is_digit_char
  constructor
  · rintro ⟨h1, h2⟩
    exact ⟨h1, h2⟩
  · rintro ⟨h1, h2⟩
    exact ⟨h1, h2⟩

theorem digits_value_foldl (ds : List Char) (acc : Nat) :
    ds.foldl (fun acc c => acc * 10 + (c.toNat - 48)) acc
      = acc * 10 ^ ds.length + digits_value ds := by
  unfold digits_value
  induction ds generalizing acc with
  | nil => simp
  | cons c cs ih =>
    simp only [List.foldl_cons, List.length_cons]
    rw [ih (acc * 10 + (c.toNat - 48)), ih (0 * 10 + (c.toNat - 48)), pow_succ]
    ring

theorem digits_value_append (xs ys : List Char) :
    digits_value (xs ++ ys) = digits_value xs * 10 ^ ys.length + digits_value ys := by
  unfold digits_value
  rw [List.foldl_append, digits_value_foldl]
  rfl

theorem digits_value_lt {ds : List Char} (h : ∀ c ∈ ds, is_digit_char c) :
    digits_value ds < 10 ^ ds.length := by
  induction ds using List.reverseRecOn with
  | nil => simp [digits_value]
  | append_singleton xs c ih =>
    rw [digits_value_append]
    have hc := (is_digit_char_iff c).1 (h c (by simp))
    have h1 := ih (fun d hd => h d (by simp [hd]))
    simp only [List.length_singleton, pow_one, List.length_append, pow_succ]
    have : digits_value [c] = c.toNat - 48 := by simp [digits_value]
    rw [this]
    omega

theorem strtoull_eq {ds : List Char} (h : ∀ c ∈ ds, is_digit_char c) (hl : ds.length ≤ 9) :
    strtoull ds = digits_value ds := by
  have key : ∀ (xs : List Char) (acc : Nat), (∀ c ∈ xs, is_digit_char c) →
      acc * 10 ^ xs.length + digits_value xs < U64 →
      xs.foldl (fun res c => (res * 10 + (c.toNat - 48)) % U64) acc
        = xs.foldl (fun acc c => acc * 10 + (c.toNat - 48)) acc := by
    intro xs
    induction xs with
    | nil => intro acc _ _; rfl
    | cons c cs ih =>
      intro acc hd hb
      simp only [List.foldl_cons]
      have e : digits_value (c :: cs) = (c.toNat - 48) * 10 ^ cs.length + digits_value cs := by
        have := digits_value_append [c] cs
        simp only [List.singleton_append] at this
        rw [this]; simp [digits_value]
      rw [e, List.length_cons, pow_succ] at hb
      have hp : 0 < 10 ^ cs.length := pow_pos (by norm_num) _
      have hb2 : (acc * 10 + (c.toNat - 48)) * 10 ^ cs.length + digits_value cs < U64 := by
        have : (acc * 10 + (c.toNat - 48)) * 10 ^ cs.length
            = acc * (10 ^ cs.length * 10) + (c.toNat - 48) * 10 ^ cs.length := by ring
        omega
      have hlt : acc * 10 + (c.toNat - 48) < U64 := by
        have : (acc * 10 + (c.toNat - 48)) * 1 ≤ (acc * 10 + (c.toNat - 48)) * 10 ^ cs.length :=
          Nat.mul_le_mul_left _ hp
        omega
      rw [Nat.mod_eq_of_lt hlt]
      exact ih _ (fun d hd' => hd d (by simp [hd'])) hb2
  unfold strtoull digits_value
  apply key ds 0 h
  have h1 := digits_value_lt h
  have h2 : 10 ^ ds.length ≤ 10 ^ 9 := Nat.pow_le_pow_right (by norm_num) hl
  have : (10 : Nat) ^ 9 < U64 := by decide
  omega

/-! ## The string constructor -/

theorem TEN_getD {len : Nat} (h : len ≤ 9) : TEN.getD len 0 = 10 ^ len := by
  interval_cases len <;> rfl

theorem all_digits_iff (s : List Char) :
    s.all (fun c => decide ('0' ≤ c ∧ c ≤ '9')) = true ↔ ∀ c ∈ s, is_digit_char c := by
  simp [List.all_eq_true, is_digit_char]

theorem negative_false_of_denote {a : big_integer} (ha : limbs_ok a.digits_)
    (h : 0 ≤ denote a) : a.negative_ = false := by
  cases hn : a.negative_
  · rfl
  · have := (denote_neg_iff ha).2 hn
    omega

theorem chunk_facts (s : List Char) :
    (if 9 < s.length then 9 else s.length) = (s.take 9).length ∧
    s.take (if 9 < s.length then 9 else s.length) = s.take 9 := by
  split
  · rename_i h
    simp [List.length_take]; omega
  · rename_i h
    constructor
    · simp [List.length_take]; omega
    · rw [List.take_of_length_le (le_refl _), List.take_of_length_le (by omega)]

/-- One chunk folded into the accumulator by `mul_short(TEN[len]) += strtoull(...)`. -/
theorem parse_step {acc : big_integer} {chunk : List Char} (hacc : canonical acc)
    (hn : acc.negative_ = false) (hd : ∀ c ∈ chunk, is_digit_char c) (hl : chunk.length ≤ 9) :
    canonical (operator_plus_eq (mul_short acc (TEN.getD chunk.length 0))
      (of_unsigned_long_long (strtoull chunk))) ∧
    (operator_plus_eq (mul_short acc (TEN.getD chunk.length 0))
      (of_unsigned_long_long (strtoull chunk))).negative_ = false ∧
    denote (operator_plus_eq (mul_short acc (TEN.getD chunk.length 0))
      (of_unsigned_long_long (strtoull chunk)))
      = denote acc * ((10 ^ chunk.length : Nat) : Int) + ((digits_value chunk : Nat) : Int) := by
  have hT : TEN.getD chunk.length 0 = 10 ^ chunk.length := TEN_getD hl
  have hTlt : 10 ^ chunk.length < BASE := by
    have h2 : 10 ^ chunk.length ≤ 10 ^ 9 := Nat.pow_le_pow_right (by norm_num) hl
    have : (10 : Nat) ^ 9 < BASE := by decide
    omega
  have hv := digits_value_lt hd
  have hvlt : digits_value chunk < 18446744073709551616 := by
    have h2 : 10 ^ chunk.length ≤ 10 ^ 9 := Nat.pow_le_pow_right (by norm_num) hl
    have : (10 : Nat) ^ 9 < 18446744073709551616 := by norm_num
    omega
  rw [hT, strtoull_eq hd hl]
  have hm := mul_short_canonical (b := 10 ^ chunk.length) hacc.1 hTlt
  have hu := of_unsigned_long_long_canonical (digits_value chunk)
  have hden : denote (operator_plus_eq (mul_short acc (10 ^ chunk.length))
      (of_unsigned_long_long (digits_value chunk)))
      = denote acc * ((10 ^ chunk.length : Nat) : Int) + ((digits_value chunk : Nat) : Int) := by
    rw [operator_plus_eq_denote hm.1 hu.1, mul_short_denote hacc.1 hn hTlt,
      of_unsigned_long_long_denote hvlt]
  refine ⟨operator_plus_eq_canonical _ _, ?_, hden⟩
  apply negative_false_of_denote (operator_plus_eq_canonical _ _).1
  rw [hden, denote_nonneg_val hn]
  positivity

theorem parse_loop_ok (fuel : Nat) (s : List Char) (acc : big_integer)
    (hf : s.length ≤ fuel) (hd : ∀ c ∈ s, is_digit_char c) (hacc : canonical acc)
    (hn : acc.negative_ = false) :
    ∃ r, parse_loop fuel s acc = .ok r ∧ canonical r ∧ r.negative_ = false ∧
      denote r = denote acc * ((10 ^ s.length : Nat) : Int) + ((digits_value s : Nat) : Int) := by
  induction fuel generalizing s acc with
  | zero =>
    have : s = [] := List.length_eq_zero.1 (by omega)
    subst this
    exact ⟨acc, rfl, hacc, hn, by simp [digits_value]⟩
  | succ fuel ih =>
    cases s with
    | nil => exact ⟨acc, rfl, hacc, hn, by simp [digits_value]⟩
    | cons c cs =>
      obtain ⟨h1, h2⟩ := chunk_facts (c :: cs)
      have hsplit : (c :: cs) = (c :: cs).take 9 ++ (c :: cs).drop 9 := (List.take_append_drop 9 _).symm
      have hdc : ∀ x ∈ (c :: cs).take 9, is_digit_char x := fun x hx => hd x (List.mem_of_mem_take hx)
      have hdr : ∀ x ∈ (c :: cs).drop 9, is_digit_char x := fun x hx => hd x (List.mem_of_mem_drop hx)
      have hcl : ((c :: cs).take 9).length ≤ 9 := by simp [List.length_take]
      obtain ⟨p1, p2, p3⟩ := parse_step hacc hn hdc hcl
      have hrl : ((c :: cs).drop 9).length ≤ fuel := by
        simp only [List.length_drop, List.length_cons] at hf ⊢
        omega
      obtain ⟨r, r1, r2, r3, r4⟩ := ih ((c :: cs).drop 9) _ hrl hdr p1 p2
      refine ⟨r, ?_, r2, r3, ?_⟩
      · rw [parse_loop]
        simp only [List.isEmpty_cons, Bool.false_eq_true, if_false]
        rw [h2, h1, if_pos ((all_digits_iff _).2 hdc)]
        exact r1
      · rw [r4, p3]
        have e1 : (c :: cs).length = ((c :: cs).take 9).length + ((c :: cs).drop 9).length := by
          rw [← List.length_append, List.take_append_drop]
        have e2 : digits_value (c :: cs) = digits_value ((c :: cs).take 9)
            * 10 ^ ((c :: cs).drop 9).length + digits_value ((c :: cs).drop 9) := by
          rw [← digits_value_append, List.take_append_drop]
        rw [e2, e1, pow_add]
        push_cast
        ring

theorem parse_loop_err (fuel : Nat) (s : List Char) (acc : big_integer)
    (hf : s.length ≤ fuel) (hd : ∃ c ∈ s, ¬ is_digit_char c) :
    parse_loop fuel s acc = .error (.invalid_argument "NaN string") := by
  induction fuel generalizing s acc with
  | zero =>
    have : s = [] := List.length_eq_zero.1 (by omega)
    subst this
    obtain ⟨c, hc, _⟩ := hd
    cases hc
  | succ fuel ih =>
    cases s with
    | nil =>
      obtain ⟨c, hc, _⟩ := hd
      cases hc
    | cons c cs =>
      obtain ⟨h1, h2⟩ := chunk_facts (c :: cs)
      rw [parse_loop]
      simp only [List.isEmpty_cons, Bool.false_eq_true, if_false]
      rw [h2, h1]
      by_cases hall : ((c :: cs).take 9).all (fun c => decide ('0' ≤ c ∧ c ≤ '9')) = true
      · rw [if_pos hall]
        apply ih
        · simp only [List.length_drop, List.length_cons] at hf ⊢
          omega
        · obtain ⟨x, hx, hxd⟩ := hd
          rw [← List.take_append_drop 9 (c :: cs), List.mem_append] at hx
          rcases hx with hx | hx
          · exact absurd ((all_digits_iff _).1 hall x hx) hxd
          · exact ⟨x, hx, hxd⟩
      · rw [if_neg hall]

theorem after_sign_length (str : List Char) :
    (after_sign str).length
      = str.length - (if str.head? = some '-' ∨ str.head? = some '+' then 1 else 0) := by
  unfold after_sign
  split <;> simp

theorem after_sign_eq_drop (str : List Char) :
    str.drop (if str.head? = some '-' ∨ str.head? = some '+' then 1 else 0) = after_sign str := by
  unfold after_sign
  split <;> simp

theorem of_string_of_empty {str : List Char} (h : after_sign str = []) :
    of_string str = .error (.invalid_argument "NaN string") := by
  unfold of_string
  split
  · rfl
  · have hl := after_sign_length str
    rw [h, List.length_nil] at hl
    rw [if_pos hl.symm]

theorem of_string_of_nonempty {str : List Char} (h : after_sign str ≠ []) :
    of_string str =
      match parse_loop str.length (after_sign str) ZERO with
      | .error e => .error e
      | .ok t =>
        .ok (if (⟨t.negative_, shrink t.digits_ false⟩ : big_integer) ≠ ZERO ∧ str.head? = some '-'
          then negate ⟨t.negative_, shrink t.digits_ false⟩
          else ⟨t.negative_, shrink t.digits_ false⟩) := by
  have hl := after_sign_length str
  have hpos : 0 < (after_sign str).length := List.length_pos.2 h
  unfold of_string
  rw [if_neg (by omega), if_neg (by omega), after_sign_eq_drop]

theorem after_sign_length_le (str : List Char) : (after_sign str).length ≤ str.length := by
  rw [after_sign_length]; omega

/-- A string whose characters after the optional sign are digits, at least one, is parsed
to the canonical value of that number. -/
theorem of_string_digits {str : List Char} (hne : after_sign str ≠ [])
    (hd : ∀ c ∈ after_sign str, is_digit_char c) :
    ∃ r, of_string str = .ok r ∧ canonical r ∧
      denote r = if str.head? = some '-' then -((digits_value (after_sign str) : Nat) : Int)
        else ((digits_value (after_sign str) : Nat) : Int) := by
  obtain ⟨t, t1, t2, t3, t4⟩ := parse_loop_ok str.length (after_sign str) ZERO
    (after_sign_length_le str) hd canonical_ZERO rfl
  rw [denote_ZERO, zero_mul, zero_add] at t4
  have hsh : (⟨t.negative_, shrink t.digits_ false⟩ : big_integer) = t := by
    have := shrink_of_canonical t2
    rw [t3] at this
    rw [this]
  rw [of_string_of_nonempty hne, t1]
  simp only [hsh]
  by_cases hm : str.head? = some '-'
  · simp only [hm, and_true, if_true]
    by_cases hz : t = ZERO
    · refine ⟨t, by simp [hz], t2, ?_⟩
      have : denote t = 0 := by rw [hz, denote_ZERO]
      rw [this] at t4
      rw [this, ← t4]; rfl
    · refine ⟨negate t, by simp [hz], negate_canonical t2, ?_⟩
      rw [negate_denote t2, t4]
  · simp only [hm, and_false, if_false]
    exact ⟨t, rfl, t2, t4⟩

theorem digit_not_sign {c : Char} (h : is_digit_char c) : c ≠ '-' ∧ c ≠ '+' := by
  rw [is_digit_char_iff] at h
  constructor
  · intro e; rw [e] at h; revert h; decide
  · intro e; rw [e] at h; revert h; decide

theorem after_sign_append {sgn ds : List Char} (hs : sgn = [] ∨ sgn = ['+'] ∨ sgn = ['-'])
    (hne : ds ≠ []) (hd : ∀ c ∈ ds, is_digit_char c) :
    after_sign (sgn ++ ds) = ds ∧ ((sgn ++ ds).head? = some '-' ↔ sgn = ['-']) := by
  rcases hs with rfl | rfl | rfl
  · cases ds with
    | nil => exact absurd rfl hne
    | cons c cs =>
      obtain ⟨h1, h2⟩ := digit_not_sign (hd c (by simp))
      simp [after_sign, h1, h2]
  · simp [after_sign]
  · simp [after_sign]

theorem after_sign_nil_iff (s : List Char) :
    after_sign s = [] ↔ s = [] ∨ s = ['+'] ∨ s = ['-'] := by
  constructor
  · intro h
    cases s with
    | nil => left; rfl
    | cons c cs =>
      unfold after_sign at h
      split at h
      · rename_i hc
        simp only [List.drop_succ_cons, List.drop_zero] at h
        subst h
        simp only [List.head?_cons, Option.some.injEq] at hc
        rcases hc with rfl | rfl
        · right; right; rfl
        · right; left; rfl
      · exact absurd h (by simp)
  · rintro (rfl | rfl | rfl) <;> rfl

/-- C14: constructing a value from a string `s` fails with `invalid_argument("NaN string")`
exactly when `s` is empty, or is a sign character only, or has a character that is
not a digit after the optional leading sign; every other string is accepted. -/
theorem C14_parse_errors (s : List Char) :
    (of_string s = .error (.invalid_argument "NaN string") ↔
      (s = [] ∨ s = ['+'] ∨ s = ['-'] ∨ ∃ c ∈ after_sign s, ¬ is_digit_char c)) ∧
    (¬ (s = [] ∨ s = ['+'] ∨ s = ['-'] ∨ ∃ c ∈ after_sign s, ¬ is_digit_char c) →
      ∃ r, of_string s = .ok r) ∧
    of_string "".toList = .error (.invalid_argument "NaN string") ∧
    of_string "-".toList = .error (.invalid_argument "NaN string") ∧
    of_string "12a3".toList = .error (.invalid_argument "NaN string") ∧
    of_string "--5".toList = .error (.invalid_argument "NaN string") := by
  have hgood : ¬ (s = [] ∨ s = ['+'] ∨ s = ['-'] ∨ ∃ c ∈ after_sign s, ¬ is_digit_char c) →
      ∃ r, of_string s = .ok r := by
    intro h
    have hne : after_sign s ≠ [] := by
      intro e
      rcases (after_sign_nil_iff s).1 e with h1 | h1 | h1
      · exact h (Or.inl h1)
      · exact h (Or.inr (Or.inl h1))
      · exact h (Or.inr (Or.inr (Or.inl h1)))
    have hd : ∀ c ∈ after_sign s, is_digit_char c := by
      intro c hc
      by_contra hcon
      exact h (Or.inr (Or.inr (Or.inr ⟨c, hc, hcon⟩)))
    obtain ⟨r, hr, _, _⟩ := of_string_digits hne hd
    exact ⟨r, hr⟩
  refine ⟨⟨fun h => ?_, fun h => ?_⟩, hgood, rfl, rfl, rfl, rfl⟩
  · by_contra hcon
    obtain ⟨r, hr⟩ := hgood hcon
    rw [hr] at h
    cases h
  · by_cases he : after_sign s = []
    · exact of_string_of_empty he
    · have hbad : ∃ c ∈ after_sign s, ¬ is_digit_char c := by
        rcases h with h | h | h | h
        · exact absurd ((after_sign_nil_iff s).2 (Or.inl h)) he
        · exact absurd ((after_sign_nil_iff s).2 (Or.inr (Or.inl h))) he
        · exact absurd ((after_sign_nil_iff s).2 (Or.inr (Or.inr h))) he
        · exact h
      rw [of_string_of_nonempty he, parse_loop_err _ _ _ (after_sign_length_le s) hbad]

/-! ## Conversion to a decimal string -/

theorem append_digits_spec (fuel x : Nat) (str : List Char) (hx : x < 10 ^ fuel) :
    append_digits fuel x str = str ++ (Nat.digits 10 x).map digit_char := by
  induction fuel generalizing x str with
  | zero =>
    have : x = 0 := by simpa using hx
    subst this
    simp [append_digits]
  | succ fuel ih =>
    by_cases h0 : x = 0
    · subst h0; simp [append_digits]
    · rw [append_digits, if_pos h0, ih (x / 10) _ (by rw [pow_succ] at hx; omega),
        Nat.digits_def' (by norm_num) (Nat.pos_of_ne_zero h0)]
      simp [digit_char]

theorem digits_length_le_nine {r : Nat} (hr : r < 10 ^ 9) : (Nat.digits 10 r).length ≤ 9 := by
  by_contra h
  have h1 : 10 ^ 9 ≤ 10 ^ ((Nat.digits 10 r).length - 1) := Nat.pow_le_pow_right (by norm_num) (by omega)
  by_cases h0 : r = 0
  · subst h0; simp at h
  · have h2 := Nat.base_pow_length_digits_le 10 r (by norm_num) h0
    have h3 : (10 : Nat) ^ (Nat.digits 10 r).length
        = 10 ^ ((Nat.digits 10 r).length - 1) * 10 := by
      rw [← pow_succ]; congr 1; omega
    omega

theorem append_as_fixed_len_str_spec (r : Nat) (str : List Char) (hr : r < 10 ^ 9) :
    append_as_fixed_len_str r str 9
      = str ++ (Nat.digits 10 r ++ List.replicate (9 - (Nat.digits 10 r).length) 0).map digit_char := by
  unfold append_as_fixed_len_str
  have hx : r < 10 ^ 10 := lt_trans hr (by norm_num)
  simp only [append_digits_spec 10 r str hx]
  simp only [List.length_append, List.length_map, Nat.add_sub_cancel_left, List.map_append,
    List.map_replicate, List.append_assoc]
  rfl

theorem limbs_val_zero_iff_ZERO {t : big_integer} (ht : canonical t) (hn : t.negative_ = false) :
    t = ZERO ↔ limbs_val t.digits_ = 0 := by
  constructor
  · intro h; rw [h]; rfl
  · intro h
    apply eq_ZERO_of_denote ht
    rw [denote_nonneg_val hn, h]; rfl

theorem to_string_loop_spec (fuel : Nat) (tmp : big_integer) (str : List Char)
    (ht : canonical tmp) (hn : tmp.negative_ = false)
    (hf : limbs_val tmp.digits_ < (10 ^ 9) ^ fuel) :
    ∃ z, to_string_loop fuel tmp str
      = .ok (str ++ (Nat.digits 10 (limbs_val tmp.digits_) ++ List.replicate z 0).map digit_char) := by
  induction fuel generalizing tmp str with
  | zero =>
    have hv : limbs_val tmp.digits_ = 0 := by simpa using hf
    have hz := (limbs_val_zero_iff_ZERO ht hn).2 hv
    refine ⟨0, ?_⟩
    rw [to_string_loop, if_neg (by simp [hz]), hv]
    simp
  | succ fuel ih =>
    by_cases hz : tmp = ZERO
    · refine ⟨0, ?_⟩
      have hv := (limbs_val_zero_iff_ZERO ht hn).1 hz
      rw [to_string_loop, if_neg (by simp [hz]), hv]
      simp
    · have hv : limbs_val tmp.digits_ ≠ 0 := fun h => hz ((limbs_val_zero_iff_ZERO ht hn).2 h)
      have hT : TEN.getD 9 0 = 10 ^ 9 := rfl
      obtain ⟨t1, d1, d2, d3, d4⟩ := div_short_spec (b := 10 ^ 9) ht.1 ht.2.1 hn
        (by norm_num) (by decide)
      have hr : limbs_val tmp.digits_ % 10 ^ 9 < 10 ^ 9 := Nat.mod_lt _ (by norm_num)
      have hq : limbs_val t1.digits_ = limbs_val tmp.digits_ / 10 ^ 9 := by
        rw [denote_nonneg_val d3] at d4
        exact_mod_cast d4
      have hf1 : limbs_val t1.digits_ < (10 ^ 9) ^ fuel := by
        rw [hq, Nat.div_lt_iff_lt_mul (by norm_num), ← pow_succ]
        exact hf
      obtain ⟨z, hzr⟩ := ih t1 (append_as_fixed_len_str (limbs_val tmp.digits_ % 10 ^ 9) str 9)
        d2 d3 hf1
      rw [to_string_loop, if_pos hz, hT, d1]
      simp only
      rw [hzr, append_as_fixed_len_str_spec _ _ hr, hq]
      have hdm := Nat.mod_add_div (limbs_val tmp.digits_) (10 ^ 9)
      generalize limbs_val tmp.digits_ % 10 ^ 9 = r at hr hdm ⊢
      generalize limbs_val tmp.digits_ / 10 ^ 9 = q at hdm ⊢
      have hlen := digits_length_le_nine hr
      by_cases hq0 : q = 0
      · subst hq0
        refine ⟨9 - (Nat.digits 10 r).length + z, ?_⟩
        have : limbs_val tmp.digits_ = r := by omega
        rw [this, Nat.digits_zero, List.nil_append, List.replicate_add]
        simp only [List.map_append, List.append_assoc]
      · refine ⟨z, ?_⟩
        have key := Nat.digits_append_zeroes_append_digits (b := 10)
          (k := 9 - (Nat.digits 10 r).length) (n := r) (by norm_num) (Nat.pos_of_ne_zero hq0)
        rw [show (Nat.digits 10 r).length + (9 - (Nat.digits 10 r).length) = 9 by omega, hdm] at key
        rw [← key]
        simp only [List.map_append, List.append_assoc]

theorem digit_char_ne_zero {d : Nat} (h0 : d ≠ 0) (h : d < 10) : digit_char d ≠ '0' := by
  interval_cases d <;> first | exact absurd rfl h0 | decide

theorem strip_zeros_replicate (z : Nat) (c : Char) (rest : List Char) (hc : c ≠ '0') :
    strip_zeros (List.replicate z '0' ++ c :: rest) = c :: rest := by
  induction z with
  | zero =>
    cases rest with
    | nil => rfl
    | cons d ds => simp [strip_zeros, hc]
  | succ z ih =>
    rw [List.replicate_succ, List.cons_append]
    cases hrep : List.replicate z '0' ++ c :: rest with
    | nil => simp at hrep
    | cons e es =>
      rw [strip_zeros, if_pos rfl, ← hrep, ih]

/-- Popping the zeros off the back of the chunked digits leaves the digits of the number. -/
theorem strip_chunks {v : Nat} (hv : v ≠ 0) (z : Nat) :
    (strip_zeros ((Nat.digits 10 v ++ List.replicate z 0).map digit_char).reverse).reverse
      = (Nat.digits 10 v).map digit_char := by
  have hne : Nat.digits 10 v ≠ [] := Nat.digits_ne_nil_iff_ne_zero.2 hv
  have hlast := Nat.getLast_digit_ne_zero 10 hv
  rcases List.eq_nil_or_concat (Nat.digits 10 v) with h0 | ⟨ds, d, hd⟩
  · exact absurd h0 hne
  rw [List.concat_eq_append] at hd
  have hdlt : d < 10 := Nat.digits_lt_base (m := v) (by norm_num) (by rw [hd]; simp)
  have hd0 : d ≠ 0 := by
    have : (Nat.digits 10 v).getLast hne = d := by
      simp only [hd]; simp
    rw [this] at hlast
    exact hlast
  rw [hd]
  simp only [List.map_append, List.map_replicate, List.reverse_append, List.reverse_replicate,
    List.map_cons, List.map_nil, List.reverse_cons, List.reverse_nil, List.nil_append,
    List.singleton_append]
  have h0c : digit_char 0 = '0' := rfl
  rw [h0c, strip_zeros_replicate z _ _ (digit_char_ne_zero hd0 hdlt)]
  simp

theorem abs_limbs_val {a : big_integer} (ha : canonical a) :
    limbs_val (abs a).digits_ = (denote a).natAbs := by
  have h1 := abs_denote ha
  rw [denote_nonneg_val (abs_negative ha)] at h1
  have h2 : ((limbs_val (abs a).digits_ : Nat) : Int) = (((denote a).natAbs : Nat) : Int) := by
    rw [h1, Int.natCast_natAbs]
  exact_mod_cast h2

theorem natAbs_denote_lt {a : big_integer} (ha : canonical a) {fuel : Nat}
    (hf : 2 * a.digits_.length ≤ fuel) : (denote a).natAbs < (10 ^ 9) ^ fuel := by
  have h1 := denote_lt ha.1
  have h2 := denote_ge ha.1
  have hlen : a.digits_.length ≠ 0 := fun h => ha.2.1 (List.length_eq_zero.1 h)
  have h3 : BASE ^ a.digits_.length < (10 ^ 18) ^ a.digits_.length :=
    Nat.pow_lt_pow_left (by decide) hlen
  have h4 : ((10 : Nat) ^ 18) ^ a.digits_.length = (10 ^ 9) ^ (2 * a.digits_.length) := by
    rw [← pow_mul, ← pow_mul]; congr 1; ring
  have h5 : ((10 : Nat) ^ 9) ^ (2 * a.digits_.length) ≤ (10 ^ 9) ^ fuel :=
    Nat.pow_le_pow_right (by norm_num) hf
  have h6 : (denote a).natAbs ≤ BASE ^ a.digits_.length := by omega
  omega

theorem to_string_correct (fuel : Nat) (a : big_integer) (ha : canonical a)
    (hf : 2 * a.digits_.length ≤ fuel) :
    to_string fuel a = .ok (decimal_numeral (denote a)) := by
  by_cases hz : a = ZERO
  · subst hz; rfl
  · have hd0 := ne_ZERO_denote ha hz
    have habs : (if a.negative_ = true then operator_neg a else a) = abs a := rfl
    have hv := abs_limbs_val ha
    have hv0 : (denote a).natAbs ≠ 0 := by omega
    obtain ⟨z, hzr⟩ := to_string_loop_spec fuel (abs a) [] (abs_canonical ha) (abs_negative ha)
      (by rw [hv]; exact natAbs_denote_lt ha hf)
    unfold to_string
    rw [if_neg hz]
    simp only [habs, hzr, List.nil_append, hv, strip_chunks hv0]
    unfold decimal_numeral
    rw [if_neg hd0]
    have hneg := denote_neg_iff ha.1
    cases hn : a.negative_
    · have : ¬ denote a < 0 := by
        intro h; have := hneg.1 h; rw [hn] at this; cases this
      simp [this]
    · have : denote a < 0 := hneg.2 hn
      simp [this]

/-- C6: for canonical `a`, `to_string(a)` returns the canonical decimal numeral of the integer
`a` denotes: `"0"` for zero, otherwise the base-10 digits of the magnitude with no
leading zero, after `'-'` exactly when `a` is negative.  The division loop runs at
most `2 * limbs` times. -/
theorem C6_to_string (fuel : Nat) (a : big_integer) (ha : canonical a)
    (hf : 2 * a.digits_.length ≤ fuel) :
    to_string fuel a = .ok (decimal_numeral (denote a)) ∧
    decimal_numeral (denote a) =
      (if denote a = 0 then ['0']
       else (if denote a < 0 then ['-'] else [])
         ++ (Nat.digits 10 (denote a).natAbs).reverse.map digit_char) ∧
    (denote a ≠ 0 → ((Nat.digits 10 (denote a).natAbs).reverse.map digit_char).head? ≠ some '0') := by
  refine ⟨to_string_correct fuel a ha hf, rfl, ?_⟩
  intro h0
  have hv0 : (denote a).natAbs ≠ 0 := by omega
  have hne : Nat.digits 10 (denote a).natAbs ≠ [] := Nat.digits_ne_nil_iff_ne_zero.2 hv0
  have hlast := Nat.getLast_digit_ne_zero 10 hv0
  rcases List.eq_nil_or_concat (Nat.digits 10 (denote a).natAbs) with h1 | ⟨ds, d, hd⟩
  · exact absurd h1 hne
  rw [List.concat_eq_append] at hd
  have hdlt : d < 10 :=
    Nat.digits_lt_base (m := (denote a).natAbs) (by norm_num) (by rw [hd]; simp)
  have hd0 : d ≠ 0 := by
    have : (Nat.digits 10 (denote a).natAbs).getLast hne = d := by
      simp only [hd]; simp
    rw [this] at hlast
    exact hlast
  rw [hd]
  simp only [List.reverse_append, List.reverse_cons, List.reverse_nil, List.nil_append,
    List.singleton_append, List.map_cons, List.head?_cons, ne_eq, Option.some.injEq]
  exact digit_char_ne_zero hd0 hdlt

/-- C6 at the specification's examples `to_string(BigInt(0)) == "0"` and
`to_string(BigInt(-1)) == "-1"`, and at `a = -(2^32 + 1)`. -/
theorem C6_to_string_witness :
    to_string 2 (of_long_long 0) = .ok "0".toList ∧
    to_string 2 (of_long_long (-1)) = .ok "-1".toList ∧
    to_string 4 (of_long_long (-4294967297)) = .ok "-4294967297".toList ∧
    canonical (of_long_long (-4294967297)) ∧
    (to_string 4 (of_long_long (-4294967297))
        = .ok (decimal_numeral (denote (of_long_long (-4294967297)))) ∧
      decimal_numeral (denote (of_long_long (-4294967297))) =
        (if denote (of_long_long (-4294967297)) = 0 then ['0']
         else (if denote (of_long_long (-4294967297)) < 0 then ['-'] else [])
           ++ (Nat.digits 10 (denote (of_long_long (-4294967297))).natAbs).reverse.map digit_char) ∧
      (denote (of_long_long (-4294967297)) ≠ 0 →
        ((Nat.digits 10 (denote (of_long_long (-4294967297))).natAbs).reverse.map digit_char).head?
          ≠ some '0')) :=
  ⟨rfl, rfl, rfl, by decide,
    C6_to_string 4 (of_long_long (-4294967297)) (by decide) (by decide)⟩

/-! ## Parsing what `to_string` prints -/

theorem digit_char_is_digit {d : Nat} (h : d < 10) : is_digit_char (digit_char d) := by
  interval_cases d <;> decide

theorem digit_char_toNat {d : Nat} (h : d < 10) : (digit_char d).toNat - 48 = d := by
  interval_cases d <;> rfl

theorem digits_value_of_digits (xs : List Nat) (h : ∀ d ∈ xs, d < 10) :
    digits_value (xs.reverse.map digit_char) = Nat.ofDigits 10 xs := by
  induction xs with
  | nil => rfl
  | cons d ds ih =>
    rw [List.reverse_cons, List.map_append, digits_value_append, ih (fun x hx => h x (by simp [hx])),
      Nat.ofDigits_cons]
    have : digits_value (List.map digit_char [d]) = d := by
      simp only [List.map_cons, List.map_nil, digits_value, List.foldl_cons, List.foldl_nil,
        Nat.zero_mul, Nat.zero_add]
      exact digit_char_toNat (h d (by simp))
    rw [this]
    simp only [List.map_cons, List.map_nil, List.length_singleton, pow_one]
    ring

/-- Parsing the decimal numeral of the integer a canonical value denotes gives the value back. -/
theorem of_string_decimal_numeral {a : big_integer} (ha : canonical a) :
    of_string (decimal_numeral (denote a)) = .ok a := by
  by_cases h0 : denote a = 0
  · have := eq_ZERO_of_denote ha h0
    subst this
    rfl
  · have hv0 : (denote a).natAbs ≠ 0 := by omega
    have hne : Nat.digits 10 (denote a).natAbs ≠ [] := Nat.digits_ne_nil_iff_ne_zero.2 hv0
    have hlt : ∀ d ∈ Nat.digits 10 (denote a).natAbs, d < 10 :=
      fun d hd => Nat.digits_lt_base (by norm_num) hd
    have hds : ∀ c ∈ (Nat.digits 10 (denote a).natAbs).reverse.map digit_char, is_digit_char c := by
      intro c hc
      rw [List.mem_map] at hc
      obtain ⟨d, hd, rfl⟩ := hc
      exact digit_char_is_digit (hlt d (List.mem_reverse.1 hd))
    have hdsne : (Nat.digits 10 (denote a).natAbs).reverse.map digit_char ≠ [] := by
      simp [hne]
    have hval : digits_value ((Nat.digits 10 (denote a).natAbs).reverse.map digit_char)
        = (denote a).natAbs := by
      rw [digits_value_of_digits _ hlt, Nat.ofDigits_digits]
    have hsg : (if denote a < 0 then ['-'] else []) = ([] : List Char)
        ∨ (if denote a < 0 then ['-'] else []) = ['+']
        ∨ (if denote a < 0 then ['-'] else []) = ['-'] := by
      split
      · right; right; rfl
      · left; rfl
    obtain ⟨e1, e2⟩ := after_sign_append hsg hdsne hds
    have hdn : decimal_numeral (denote a) = (if denote a < 0 then ['-'] else [])
        ++ (Nat.digits 10 (denote a).natAbs).reverse.map digit_char := by
      unfold decimal_numeral; rw [if_neg h0]
    rw [hdn]
    obtain ⟨r, r1, r2, r3⟩ := @of_string_digits ((if denote a < 0 then ['-'] else [])
        ++ (Nat.digits 10 (denote a).natAbs).reverse.map digit_char)
      (by rw [e1]; exact hdsne) (by rw [e1]; exact hds)
    rw [r1]
    congr 1
    apply canonical_unique r2 ha
    rw [r3, e1, hval]
    by_cases hn : denote a < 0
    · have : (if denote a < 0 then ['-'] else ([] : List Char)) = ['-'] := by rw [if_pos hn]
      rw [if_pos (e2.2 this)]
      omega
    · have : ¬ ((if denote a < 0 then ['-'] else ([] : List Char)) = ['-']) := by
        rw [if_neg hn]; simp
      rw [if_neg (fun h => this (e2.1 h))]
      omega

/-- C7: a string made of an optional single `'+'` or `'-'` and one or more digits is
parsed to the canonical value of the number its digits denote in base 10, negated
after `'-'`; a digit run of value zero gives the non-negative zero.  Consequently
parsing what `to_string(a)` prints gives `a` back. -/
theorem C7_of_string (sgn ds : List Char) (a : big_integer) (fuel : Nat)
    (hs : sgn = [] ∨ sgn = ['+'] ∨ sgn = ['-']) (hne : ds ≠ [])
    (hd : ∀ c ∈ ds, is_digit_char c) (ha : canonical a) (hf : 2 * a.digits_.length ≤ fuel) :
    (∃ r, of_string (sgn ++ ds) = .ok r ∧ canonical r ∧
      denote r = (if sgn = ['-'] then -((digits_value ds : Nat) : Int)
        else ((digits_value ds : Nat) : Int)) ∧
      (digits_value ds = 0 → r = ZERO)) ∧
    (∃ s, to_string fuel a = .ok s ∧ of_string s = .ok a) := by
  obtain ⟨e1, e2⟩ := after_sign_append hs hne hd
  obtain ⟨r, r1, r2, r3⟩ := @of_string_digits (sgn ++ ds) (by rw [e1]; exact hne)
    (by rw [e1]; exact hd)
  rw [e1] at r3
  refine ⟨⟨r, r1, r2, ?_, ?_⟩, ⟨decimal_numeral (denote a), to_string_correct fuel a ha hf,
    of_string_decimal_numeral ha⟩⟩
  · rw [r3]
    by_cases hm : sgn = ['-']
    · rw [if_pos (e2.2 hm), if_pos hm]
    · rw [if_neg (fun h => hm (e2.1 h)), if_neg hm]
  · intro hz
    apply eq_ZERO_of_denote r2
    rw [r3, hz]
    split <;> rfl

/-- C7 at the strings `"-000"` and `"+0042"` and at `a = -(2^32 + 1)`. -/
theorem C7_of_string_witness :
    of_string "-000".toList = .ok ZERO ∧
    of_string "+0042".toList = .ok (of_long_long 42) ∧
    canonical (of_long_long (-4294967297)) ∧
    ((∃ r, of_string (['-'] ++ ['0', '0', '0']) = .ok r ∧ canonical r ∧
      denote r = (if ['-'] = ['-'] then -((digits_value ['0', '0', '0'] : Nat) : Int)
        else ((digits_value ['0', '0', '0'] : Nat) : Int)) ∧
      (digits_value ['0', '0', '0'] = 0 → r = ZERO)) ∧
    (∃ s, to_string 4 (of_long_long (-4294967297)) = .ok s ∧
      of_string s = .ok (of_long_long (-4294967297)))) :=
  ⟨rfl, rfl, by decide,
    C7_of_string ['-'] ['0', '0', '0'] (of_long_long (-4294967297)) 4
      (Or.inr (Or.inr rfl)) (by decide) (by decide) (by decide) (by decide)⟩

/-! ## Multiplication -/

theorem get_digit_beyond {rhs : big_integer} (hn : rhs.negative_ = false) {j : Nat}
    (hj : rhs.digits_.length ≤ j) : get_digit rhs j = 0 := by
  unfold get_digit
  rw [if_neg (by omega), hn]
  rfl

theorem ext_val_beyond {rhs : big_integer} (hn : rhs.negative_ = false) {j : Nat}
    (hj : rhs.digits_.length ≤ j) (n : Nat) : ext_val (get_digit rhs) j n = 0 := by
  rw [← ext_val_zero j n]
  apply ext_val_congr
  intro t _
  exact get_digit_beyond hn (by omega)

theorem ext_val_nonneg_val {rhs : big_integer} (hn : rhs.negative_ = false) {n : Nat}
    (h : rhs.digits_.length ≤ n) : ext_val (get_digit rhs) 0 n = limbs_val rhs.digits_ := by
  obtain ⟨k, rfl⟩ : ∃ k, n = rhs.digits_.length + k := ⟨n - rhs.digits_.length, by omega⟩
  rw [ext_get_digit, hn, limbs_val_append]
  have : b2n false * UINT32_MAX = 0 := rfl
  rw [this, limbs_val_replicate_zero]
  simp

theorem mul_cur_lt {d x g c : Nat} (hd : d < BASE) (hx : x < BASE) (hg : g < BASE)
    (hc : c < BASE) : d + x * g + c < U64 := by
  rw [U64_eq]
  have h1 : x * g ≤ (BASE - 1) * (BASE - 1) := Nat.mul_le_mul (by omega) (by omega)
  have h2 : (BASE - 1) + (BASE - 1) * (BASE - 1) + (BASE - 1) < BASE * BASE := by decide
  omega

theorem mul_inner_spec {x : Nat} {rhs : big_integer} (hx : x < BASE)
    (hr : limbs_ok rhs.digits_) (hn : rhs.negative_ = false) (l : List Nat) (j carry : Nat)
    (hl : limbs_ok l) (hc : carry < BASE) (hlen : rhs.digits_.length ≤ j + l.length)
    (hb : limbs_val l + x * ext_val (get_digit rhs) j l.length + carry < BASE ^ l.length) :
    ∃ r, mul_inner x rhs l j carry = .ok r ∧ r.length = l.length ∧ limbs_ok r ∧
      limbs_val r = limbs_val l + x * ext_val (get_digit rhs) j l.length + carry := by
  induction l generalizing j carry with
  | nil =>
    simp only [List.length_nil, pow_zero, limbs_val, ext_val, Nat.mul_zero, Nat.zero_add] at hb hlen
    have h0 : carry = 0 := by omega
    refine ⟨[], ?_, rfl, limbs_ok_nil, ?_⟩
    · rw [mul_inner, if_neg (by omega)]
    · simp [limbs_val, ext_val, h0]
  | cons d ds ih =>
    rw [limbs_ok_cons] at hl
    have hB := BASE_pos
    by_cases hcont : j < rhs.digits_.length ∨ carry ≠ 0
    · have hg : get_digit rhs j < BASE := by
        have := get_digit_le hr j
        have : UINT32_MAX < BASE := by decide
        omega
      have hcur := mul_cur_lt hl.1 hx hg hc
      have hdiv : (d + x * get_digit rhs j + carry) / BASE < BASE := by
        rw [Nat.div_lt_iff_lt_mul hB, ← U64_eq]; exact hcur
      have hdm := Nat.div_add_mod (d + x * get_digit rhs j + carry) BASE
      simp only [List.length_cons, limbs_val, ext_val, pow_succ] at hb
      have hb2 : limbs_val ds + x * ext_val (get_digit rhs) (j + 1) ds.length
          + (d + x * get_digit rhs j + carry) / BASE < BASE ^ ds.length := by
        have e : d + BASE * limbs_val ds
            + x * (get_digit rhs j + BASE * ext_val (get_digit rhs) (j + 1) ds.length) + carry
            = (d + x * get_digit rhs j + carry)
              + BASE * (limbs_val ds + x * ext_val (get_digit rhs) (j + 1) ds.length) := by ring
        rw [e] at hb
        by_contra hcon
        have h1 : BASE * BASE ^ ds.length ≤ BASE * (limbs_val ds
            + x * ext_val (get_digit rhs) (j + 1) ds.length
            + (d + x * get_digit rhs j + carry) / BASE) := Nat.mul_le_mul_left _ (by omega)
        rw [Nat.mul_add] at h1
        have h2 : BASE ^ ds.length * BASE = BASE * BASE ^ ds.length := Nat.mul_comm _ _
        omega
      obtain ⟨r, r1, r2, r3, r4⟩ := ih (j + 1) ((d + x * get_digit rhs j + carry) / BASE)
        hl.2 hdiv (by simp only [List.length_cons] at hlen; omega) hb2
      refine ⟨((d + x * get_digit rhs j + carry) % BASE) :: r, ?_, by simp [r2],
        limbs_ok_cons.2 ⟨Nat.mod_lt _ hB, r3⟩, ?_⟩
      · rw [mul_inner, if_pos hcont]
        simp only [Nat.mod_eq_of_lt hcur, r1]
      · simp only [limbs_val, List.length_cons, ext_val, r4]
        have e : d + BASE * limbs_val ds
            + x * (get_digit rhs j + BASE * ext_val (get_digit rhs) (j + 1) ds.length) + carry
            = (d + x * get_digit rhs j + carry)
              + BASE * (limbs_val ds + x * ext_val (get_digit rhs) (j + 1) ds.length) := by ring
        rw [e, Nat.mul_add]
        omega
    · have hj : rhs.digits_.length ≤ j := by omega
      have hc0 : carry = 0 := by
        by_contra h; exact hcont (Or.inr h)
      refine ⟨d :: ds, ?_, rfl, limbs_ok_cons.2 hl, ?_⟩
      · rw [mul_inner, if_neg hcont]
      · rw [ext_val_beyond hn hj, hc0]; simp

theorem mul_outer_spec {rhs : big_integer} (hr : limbs_ok rhs.digits_)
    (hn : rhs.negative_ = false) (xs nd : List Nat) (hxs : limbs_ok xs) (hnd : limbs_ok nd)
    (hlen : xs.length + rhs.digits_.length ≤ nd.length)
    (hb : limbs_val nd + limbs_val xs * limbs_val rhs.digits_ < BASE ^ nd.length) :
    ∃ r, mul_outer rhs xs nd = .ok r ∧ r.length = nd.length ∧ limbs_ok r ∧
      limbs_val r = limbs_val nd + limbs_val xs * limbs_val rhs.digits_ := by
  induction xs generalizing nd with
  | nil => exact ⟨nd, rfl, rfl, hnd, by simp [limbs_val]⟩
  | cons x xs ih =>
    rw [limbs_ok_cons] at hxs
    simp only [List.length_cons] at hlen
    simp only [limbs_val] at hb
    have hev : ext_val (get_digit rhs) 0 nd.length = limbs_val rhs.digits_ :=
      ext_val_nonneg_val hn (by omega)
    have hb1 : limbs_val nd + x * ext_val (get_digit rhs) 0 nd.length + 0 < BASE ^ nd.length := by
      rw [hev]
      have : (x + BASE * limbs_val xs) * limbs_val rhs.digits_
          = x * limbs_val rhs.digits_ + BASE * limbs_val xs * limbs_val rhs.digits_ := by ring
      omega
    obtain ⟨r, r1, r2, r3, r4⟩ := mul_inner_spec hxs.1 hr hn nd 0 0 hnd BASE_pos (by omega) hb1
    rw [hev, Nat.add_zero] at r4
    cases r with
    | nil => simp only [List.length_nil] at r2; omega
    | cons d rest =>
      rw [limbs_ok_cons] at r3
      simp only [List.length_cons] at r2
      simp only [limbs_val] at r4
      have hb2 : limbs_val rest + limbs_val xs * limbs_val rhs.digits_ < BASE ^ rest.length := by
        rw [← r2, pow_succ] at hb
        have e : (x + BASE * limbs_val xs) * limbs_val rhs.digits_
            = x * limbs_val rhs.digits_ + BASE * (limbs_val xs * limbs_val rhs.digits_) := by ring
        rw [e] at hb
        by_contra hcon
        have h1 : BASE * BASE ^ rest.length
            ≤ BASE * (limbs_val rest + limbs_val xs * limbs_val rhs.digits_) :=
          Nat.mul_le_mul_left _ (by omega)
        rw [Nat.mul_add] at h1
        have h2 : BASE ^ rest.length * BASE = BASE * BASE ^ rest.length := Nat.mul_comm _ _
        omega
      obtain ⟨q, q1, q2, q3, q4⟩ := ih rest hxs.2 r3.2 (by omega) hb2
      refine ⟨d :: q, ?_, by simp [q2, r2], limbs_ok_cons.2 ⟨r3.1, q3⟩, ?_⟩
      · rw [mul_outer, r1]
        simp only [q1]
      · simp only [limbs_val, q4]
        have e : (x + BASE * limbs_val xs) * limbs_val rhs.digits_
            = x * limbs_val rhs.digits_ + BASE * (limbs_val xs * limbs_val rhs.digits_) := by ring
        rw [e, Nat.mul_add]
        omega

theorem signed_product (x y : Int) :
    (if xor (decide (x < 0)) (decide (y < 0)) then -(|x| * |y|) else |x| * |y|) = x * y := by
  by_cases hx : x < 0 <;> by_cases hy : y < 0
  · simp only [hx, hy, decide_True, Bool.xor_self, Bool.false_eq_true, if_false,
      abs_of_neg hx, abs_of_neg hy]
    ring
  · simp only [hx, hy, decide_True, decide_False, Bool.xor_false, if_true,
      abs_of_neg hx, abs_of_nonneg (not_lt.1 hy)]
    ring
  · simp only [hx, hy, decide_True, decide_False, Bool.xor_true, Bool.not_false, if_true,
      abs_of_nonneg (not_lt.1 hx), abs_of_neg hy]
    ring
  · simp only [hx, hy, decide_False, Bool.xor_self, Bool.false_eq_true, if_false,
      abs_of_nonneg (not_lt.1 hx), abs_of_nonneg (not_lt.1 hy)]

theorem negative_eq_decide {a : big_integer} (ha : limbs_ok a.digits_) :
    a.negative_ = decide (denote a < 0) := by
  have h := denote_neg_iff ha
  cases hn : a.negative_
  · have : ¬ denote a < 0 := fun h' => by have := h.1 h'; rw [hn] at this; cases this
    simp [this]
  · simp [h.2 hn]

theorem operator_mul_eq_spec {a b : big_integer} (ha : canonical a) (hb : canonical b) :
    ∃ r, operator_mul_eq a b = .ok r ∧ canonical r ∧ denote r = denote a * denote b := by
  have hA := abs_canonical ha
  have hB := abs_canonical hb
  have hAn := abs_negative ha
  have hBn := abs_negative hb
  have hbound : limbs_val (List.replicate ((abs a).digits_.length + (abs b).digits_.length) 0)
      + limbs_val (abs a).digits_ * limbs_val (abs b).digits_
      < BASE ^ (List.replicate ((abs a).digits_.length + (abs b).digits_.length) 0).length := by
    rw [limbs_val_replicate_zero, List.length_replicate, pow_add, Nat.zero_add]
    exact Nat.mul_lt_mul'' (limbs_val_lt hA.1) (limbs_val_lt hB.1)
  obtain ⟨nd, n1, n2, n3, n4⟩ := mul_outer_spec hB.1 hBn (abs a).digits_
    (List.replicate ((abs a).digits_.length + (abs b).digits_.length) 0) hA.1
    (limbs_ok_replicate BASE_pos) (by simp) hbound
  rw [limbs_val_replicate_zero, Nat.zero_add] at n4
  have hne : nd ≠ [] := by
    intro h
    rw [h, List.length_replicate] at n2
    have : 0 < (abs a).digits_.length := List.length_pos.2 hA.2.1
    simp at n2
    omega
  have hrc : canonical ⟨(abs a).negative_, shrink nd false⟩ := by
    rw [hAn]; exact canonical_shrink false n3 hne
  have hrd : denote ⟨(abs a).negative_, shrink nd false⟩ = |denote a| * |denote b| := by
    rw [hAn, denote_shrink, denote_nonneg_val rfl, n4, ← abs_denote ha, ← abs_denote hb,
      denote_nonneg_val hAn, denote_nonneg_val hBn]
    push_cast; rfl
  have hprod := signed_product (denote a) (denote b)
  rw [← negative_eq_decide ha.1, ← negative_eq_decide hb.1] at hprod
  unfold operator_mul_eq
  simp only [n1]
  by_cases hs : xor a.negative_ b.negative_ = true
  · rw [hs] at hprod
    simp only [if_true] at hprod
    refine ⟨negate ⟨(abs a).negative_, shrink nd false⟩, by rw [if_pos hs],
      negate_canonical hrc, ?_⟩
    rw [negate_denote hrc, hrd, hprod]
  · have hs' : xor a.negative_ b.negative_ = false := by
      cases h : xor a.negative_ b.negative_
      · rfl
      · exact absurd h hs
    rw [hs'] at hprod
    simp only [Bool.false_eq_true, if_false] at hprod
    refine ⟨⟨(abs a).negative_, shrink nd false⟩, by rw [if_neg hs], hrc, ?_⟩
    rw [hrd, hprod]

/-- C4: for canonical `a` and `b` of any signs, `a * b` succeeds, is canonical and denotes
the product of the integers `a` and `b` denote; hence `a * b == b * a`, and a product
that is zero is the non-negative zero. -/
theorem C4_mul_correct (a b : big_integer) (ha : canonical a) (hb : canonical b) :
    (∃ r, operator_mul_eq a b = .ok r ∧ canonical r ∧ denote r = denote a * denote b ∧
      (denote a * denote b = 0 → r = ZERO)) ∧
    operator_mul_eq a b = operator_mul_eq b a := by
  obtain ⟨r, r1, r2, r3⟩ := operator_mul_eq_spec ha hb
  obtain ⟨q, q1, q2, q3⟩ := operator_mul_eq_spec hb ha
  refine ⟨⟨r, r1, r2, r3, fun h0 => eq_ZERO_of_denote r2 (by rw [r3, h0])⟩, ?_⟩
  rw [r1, q1]
  congr 1
  apply canonical_unique r2 q2
  rw [r3, q3]
  ring

/-- C4 at `a = -2^64`, whose magnitude needs one limb more than `a`, and `b = -(2^32 + 1)`;
and a negative operand times zero. -/
theorem C4_mul_correct_witness :
    operator_mul_eq ⟨true, [0, 0]⟩ ⟨true, [4294967295, 4294967294]⟩ = .ok ⟨false, [0, 0, 1, 1]⟩ ∧
    operator_mul_eq ⟨true, [4294967291]⟩ ZERO = .ok ZERO ∧
    canonical ⟨true, [0, 0]⟩ ∧ canonical ⟨true, [4294967295, 4294967294]⟩ ∧
    ((∃ r, operator_mul_eq ⟨true, [0, 0]⟩ ⟨true, [4294967295, 4294967294]⟩ = .ok r ∧
      canonical r ∧
      denote r = denote ⟨true, [0, 0]⟩ * denote ⟨true, [4294967295, 4294967294]⟩ ∧
      (denote ⟨true, [0, 0]⟩ * denote ⟨true, [4294967295, 4294967294]⟩ = 0 → r = ZERO)) ∧
    operator_mul_eq ⟨true, [0, 0]⟩ ⟨true, [4294967295, 4294967294]⟩
      = operator_mul_eq ⟨true, [4294967295, 4294967294]⟩ ⟨true, [0, 0]⟩) :=
  ⟨rfl, rfl, by decide, by decide,
    C4_mul_correct ⟨true, [0, 0]⟩ ⟨true, [4294967295, 4294967294]⟩ (by decide) (by decide)⟩

/-! ## The sign flag of every result -/

theorem flag_iff {r : big_integer} {v : Int} (hr : limbs_ok r.digits_) (hd : denote r = v) :
    r.negative_ = true ↔ v < 0 := by
  rw [← hd]
  exact (denote_neg_iff hr).symm

theorem limbs_ok_map_compl {v : List Nat} :
    limbs_ok (v.map (fun x => UINT32_MAX - x)) := by
  intro d hd
  rw [List.mem_map] at hd
  obtain ⟨x, _, rfl⟩ := hd
  have : UINT32_MAX < BASE := by decide
  omega

theorem operator_not_denote {a : big_integer} (ha : limbs_ok a.digits_) :
    denote (operator_not a) = -denote a - 1 := by
  have hc := limbs_val_map_compl ha
  have hc' := congrArg (fun n : Nat => (n : Int)) hc
  simp only [Nat.cast_add, Nat.cast_one] at hc'
  unfold operator_not denote
  simp only [List.length_map]
  cases a.negative_
  · simp only [Bool.not_false, if_true, Bool.false_eq_true, if_false]
    omega
  · simp only [Bool.not_true, Bool.false_eq_true, if_false, if_true]
    omega

theorem canonical_ONE : canonical ONE := by decide

theorem denote_ONE : denote ONE = 1 := by decide

theorem shr_nonneg_flag {a : big_integer} (ha : limbs_ok a.digits_) {n : Nat}
    (hn : n / 32 ≤ a.digits_.length) :
    ∃ r, operator_shr_eq a (n : Int) = .ok r ∧ (r.negative_ = true ↔ denote a / 2 ^ n < 0) := by
  have hp : (0 : Int) < 2 ^ n := by positivity
  have hsign : a.negative_ = true ↔ denote a / 2 ^ n < 0 := by
    rw [← denote_neg_iff ha]
    constructor
    · intro h; exact Int.ediv_neg' h hp
    · intro h
      by_contra hc
      have := Int.ediv_nonneg (not_lt.1 hc) (le_of_lt hp)
      omega
  unfold operator_shr_eq
  rw [if_neg (by omega)]
  simp only [Int.toNat_ofNat]
  unfold shr_nonneg
  rw [if_neg (by simp only [BASE_POW]; omega)]
  exact ⟨_, rfl, hsign⟩

/-- Why the amended C20 leaves `/` and `%` out: `2^32 / -2^64` is returned as `-2^64`, with
the flag set, where the truncating quotient is `0` (the empty quotient vector of C19). -/
theorem quotient_flag_at_empty_quotient :
    canonical ⟨false, [0, 1]⟩ ∧ canonical ⟨true, [0, 0]⟩ ∧
    operator_div_eq ⟨false, [0, 1]⟩ ⟨true, [0, 0]⟩ = .ok ⟨true, [0, 0]⟩ ∧
    Int.tdiv (denote ⟨false, [0, 1]⟩) (denote ⟨true, [0, 0]⟩) = 0 := by
  refine ⟨by decide, by decide, rfl, by decide⟩

/-- C20 as amended: the sign flag of the value a constructor (native integer or valid
string) or one of the operators `+`, `-`, `*`, unary `-`, `~`, `&`, `|`, `^`, `<<`, `++`,
`--` returns, and of `>>` when it erases no more limbs than are stored, is set exactly
when the integer the operation yields is negative. -/
theorem C20_flag_is_sign (a b : big_integer) (x : Int) (u n : Nat) (sgn ds : List Char)
    (ha : canonical a) (hb : canonical b)
    (hx1 : -9223372036854775808 ≤ x) (hx2 : x < 9223372036854775808)
    (hu : u < 18446744073709551616)
    (hs : sgn = [] ∨ sgn = ['+'] ∨ sgn = ['-']) (hne : ds ≠ [])
    (hd : ∀ c ∈ ds, is_digit_char c) :
    (denote (of_long_long x) = x ∧ ((of_long_long x).negative_ = true ↔ x < 0)) ∧
    (denote (of_unsigned_long_long u) = (u : Int) ∧ (of_unsigned_long_long u).negative_ = false) ∧
    (∃ r, of_string (sgn ++ ds) = .ok r ∧
      (r.negative_ = true ↔
        (if sgn = ['-'] then -((digits_value ds : Nat) : Int) else ((digits_value ds : Nat) : Int)) < 0)) ∧
    ((operator_plus_eq a b).negative_ = true ↔ denote a + denote b < 0) ∧
    ((operator_minus_eq a b).negative_ = true ↔ denote a - denote b < 0) ∧
    (∃ r, operator_mul_eq a b = .ok r ∧ (r.negative_ = true ↔ denote a * denote b < 0)) ∧
    ((operator_neg a).negative_ = true ↔ -denote a < 0) ∧
    ((operator_not a).negative_ = true ↔ -denote a - 1 < 0) ∧
    ((operator_and_eq a b).negative_ = true ↔ Int.land (denote a) (denote b) < 0) ∧
    ((operator_or_eq a b).negative_ = true ↔ Int.lor (denote a) (denote b) < 0) ∧
    ((operator_xor_eq a b).negative_ = true ↔ Int.xor (denote a) (denote b) < 0) ∧
    (∃ r, operator_shl_eq a (n : Int) = .ok r ∧ (r.negative_ = true ↔ denote a * 2 ^ n < 0)) ∧
    (n / 32 ≤ a.digits_.length →
      ∃ r, operator_shr_eq a (n : Int) = .ok r ∧ (r.negative_ = true ↔ denote a / 2 ^ n < 0)) ∧
    ((operator_inc a).negative_ = true ↔ denote a + 1 < 0) ∧
    ((operator_dec a).negative_ = true ↔ denote a - 1 < 0) := by
  refine ⟨⟨of_long_long_denote hx1 hx2, by simp [of_long_long]⟩,
    ⟨of_unsigned_long_long_denote hu, rfl⟩, ?_,
    flag_iff (operator_plus_eq_canonical a b).1 (operator_plus_eq_denote ha.1 hb.1),
    flag_iff (operator_minus_eq_canonical a b).1 (operator_minus_eq_denote ha.1 hb.1), ?_,
    flag_iff (negate_canonical ha).1 (negate_denote ha),
    flag_iff limbs_ok_map_compl (operator_not_denote ha.1),
    flag_iff (bitwise_canonical ha hb.1 and_lt_base).1 (operator_and_eq_denote ha.1 hb.1),
    flag_iff (bitwise_canonical ha hb.1 or_lt_base).1 (operator_or_eq_denote ha.1 hb.1),
    flag_iff (bitwise_canonical ha hb.1 xor_lt_base).1 (operator_xor_eq_denote ha.1 hb.1), ?_,
    fun hn => shr_nonneg_flag ha.1 hn, ?_, ?_⟩
  · obtain ⟨e1, e2⟩ := after_sign_append hs hne hd
    obtain ⟨r, r1, r2, r3⟩ := @of_string_digits (sgn ++ ds) (by rw [e1]; exact hne)
      (by rw [e1]; exact hd)
    rw [e1] at r3
    refine ⟨r, r1, flag_iff r2.1 ?_⟩
    rw [r3]
    by_cases hm : sgn = ['-']
    · rw [if_pos (e2.2 hm), if_pos hm]
    · rw [if_neg (fun h => hm (e2.1 h)), if_neg hm]
  · obtain ⟨r, r1, r2, r3⟩ := operator_mul_eq_spec ha hb
    exact ⟨r, r1, flag_iff r2.1 r3⟩
  · refine ⟨shl_nonneg a n, ?_, flag_iff (shl_nonneg_canonical ha n).1 (shl_nonneg_denote ha.1 n)⟩
    unfold operator_shl_eq
    rw [if_neg (by omega)]
    simp
  · exact flag_iff (operator_plus_eq_canonical a ONE).1
      (by rw [operator_inc, operator_plus_eq_denote ha.1 canonical_ONE.1, denote_ONE])
  · exact flag_iff (operator_minus_eq_canonical a ONE).1
      (by rw [operator_dec, operator_minus_eq_denote ha.1 canonical_ONE.1, denote_ONE])

/-- C20 as amended, at `a = 2^31`, `b = -2^32`, `x = -1`, `u = 2^63`, `n = 33` and the string `"-7"`. -/
theorem C20_flag_is_sign_witness :
    canonical ⟨false, [2147483648]⟩ ∧ canonical ⟨true, [0]⟩ ∧
    (⟨false, [2147483648]⟩ : big_integer).negative_ = false ∧
    top_bit (⟨false, [2147483648]⟩ : big_integer).digits_ = true ∧
    (
    (denote (of_long_long (-1 : Int)) = (-1 : Int) ∧ ((of_long_long (-1 : Int)).negative_ = true ↔ (-1 : Int) < 0)) ∧
    (denote (of_unsigned_long_long (9223372036854775808 : Nat)) = ((9223372036854775808 : Nat) : Int) ∧ (of_unsigned_long_long (9223372036854775808 : Nat)).negative_ = false) ∧
    (∃ r, of_string (['-'] ++ ['7']) = .ok r ∧
      (r.negative_ = true ↔
        (if ['-'] = ['-'] then -((digits_value ['7'] : Nat) : Int) else ((digits_value ['7'] : Nat) : Int)) < 0)) ∧
    ((operator_plus_eq (⟨false, [2147483648]⟩ : big_integer) (⟨true, [0]⟩ : big_integer)).negative_ = true ↔ denote (⟨false, [2147483648]⟩ : big_integer) + denote (⟨true, [0]⟩ : big_integer) < 0) ∧
    ((operator_minus_eq (⟨false, [2147483648]⟩ : big_integer) (⟨true, [0]⟩ : big_integer)).negative_ = true ↔ denote (⟨false, [2147483648]⟩ : big_integer) - denote (⟨true, [0]⟩ : big_integer) < 0) ∧
    (∃ r, operator_mul_eq (⟨false, [2147483648]⟩ : big_integer) (⟨true, [0]⟩ : big_integer) = .ok r ∧ (r.negative_ = true ↔ denote (⟨false, [2147483648]⟩ : big_integer) * denote (⟨true, [0]⟩ : big_integer) < 0)) ∧
    ((operator_neg (⟨false, [2147483648]⟩ : big_integer)).negative_ = true ↔ -denote (⟨false, [2147483648]⟩ : big_integer) < 0) ∧
    ((operator_not (⟨false, [2147483648]⟩ : big_integer)).negative_ = true ↔ -denote (⟨false, [2147483648]⟩ : big_integer) - 1 < 0) ∧
    ((operator_and_eq (⟨false, [2147483648]⟩ : big_integer) (⟨true, [0]⟩ : big_integer)).negative_ = true ↔ Int.land (denote (⟨false, [2147483648]⟩ : big_integer)) (denote (⟨true, [0]⟩ : big_integer)) < 0) ∧
    ((operator_or_eq (⟨false, [2147483648]⟩ : big_integer) (⟨true, [0]⟩ : big_integer)).negative_ = true ↔ Int.lor (denote (⟨false, [2147483648]⟩ : big_integer)) (denote (⟨true, [0]⟩ : big_integer)) < 0) ∧
    ((operator_xor_eq (⟨false, [2147483648]⟩ : big_integer) (⟨true, [0]⟩ : big_integer)).negative_ = true ↔ Int.xor (denote (⟨false, [2147483648]⟩ : big_integer)) (denote (⟨true, [0]⟩ : big_integer)) < 0) ∧
    (∃ r, operator_shl_eq (⟨false, [2147483648]⟩ : big_integer) ((33 : Nat) : Int) = .ok r ∧ (r.negative_ = true ↔ denote (⟨false, [2147483648]⟩ : big_integer) * 2 ^ (33 : Nat) < 0)) ∧
    ((33 : Nat) / 32 ≤ (⟨false, [2147483648]⟩ : big_integer).digits_.length →
      ∃ r, operator_shr_eq (⟨false, [2147483648]⟩ : big_integer) ((33 : Nat) : Int) = .ok r ∧ (r.negative_ = true ↔ denote (⟨false, [2147483648]⟩ : big_integer) / 2 ^ (33 : Nat) < 0)) ∧
    ((operator_inc (⟨false, [2147483648]⟩ : big_integer)).negative_ = true ↔ denote (⟨false, [2147483648]⟩ : big_integer) + 1 < 0) ∧
    ((operator_dec (⟨false, [2147483648]⟩ : big_integer)).negative_ = true ↔ denote (⟨false, [2147483648]⟩ : big_integer) - 1 < 0)) :=
  ⟨by decide, by decide, rfl, by decide,
    C20_flag_is_sign ⟨false, [2147483648]⟩ ⟨true, [0]⟩ (-1) 9223372036854775808 33 ['-'] ['7']
      (by decide) (by decide) (by decide) (by decide) (by decide)
      (Or.inr (Or.inr rfl)) (by decide) (by decide)⟩

end BigInteger
